import Mathlib

/-!
Verification of the logic-tree core (openquake/commonlib/lt.py).

The Python objects are modelled with an explicit arena: the `Branch`
objects of the source are mutable and shared between the `branchset`
dict and the linking structure, so every `BranchSet` object lives in a
list (the arena) and a branch's `childset` reference is an index into
that arena.  Weights are rationals (the Python floats carry exact
decimal literals in every property of interest).  Fallible Python code
(KeyError, ZeroDivisionError, the weighted-choice validation error,
RecursionError) is modelled with `Option`.
-/

set_option linter.unusedVariables false

namespace LT

/-- A branch: the four record fields of the source `Branch` tuple plus the
mutable `childset` reference, modelled as an index into the arena of
branch-sets owned by the logic tree (`None` in the source becomes `none`). -/
structure Branch where
  bsid : String
  brid : String
  uncertainty : String
  weight : ℚ
  childset : Option Nat := none
deriving DecidableEq

/-- A branch-set: ordered branches plus an attribute mapping.  The attribute
values are strings, as produced by the XML attribute reader and by the toml
round trip of the codec. -/
structure BranchSet where
  branches : List Branch
  attrs : List (String × String)
deriving DecidableEq

/-- The `Realization` namedtuple of the source: value, weight, lt_path,
ordinal. -/
structure Realization where
  value : List String
  weight : ℚ
  lt_path : List String
  ordinal : Nat
deriving DecidableEq

/-- Python `dict.get` on an association list: the first matching key wins
(a Python dict never holds a key twice, so on dict-shaped lists this is the
lookup). -/
def alookup (k : String) : List (String × α) → Option α
  | [] => none
  | p :: rest => if p.1 = k then some p.2 else alookup k rest

/-- Python dict insertion: an existing key keeps its position and receives
the new value, a new key goes to the end. -/
def dictInsert (k : String) (v : α) : List (String × α) → List (String × α)
  | [] => [(k, v)]
  | p :: rest => if p.1 = k then (k, v) :: rest else p :: dictInsert k v rest

/-- Python `dict.pop k`: drop the pair with the given key (the first one,
which on dict-shaped lists is the only one). -/
def aremove (k : String) : List (String × α) → List (String × α)
  | [] => []
  | p :: rest => if p.1 = k then rest else p :: aremove k rest

/-- Dereference a branch-set object, that is an arena index.  Indices built
by the constructors below are always in range; the default is never hit in
the verified scenarios. -/
def getSet (sets : List BranchSet) (i : Nat) : BranchSet :=
  sets.getD i ⟨[], []⟩

/-- Python substring containment: `needle in hay` on strings. -/
def containsSub (hay needle : String) : Bool :=
  (List.range (hay.data.length + 1)).any fun i => needle.data.isPrefixOf (hay.data.drop i)

/-- The linking test of the constructor: `if not atb or branch.brid in atb`.
An absent (`None`) or empty `applyToBranches` string is falsy and selects
every branch; otherwise Python tests substring containment of the branch id
in the attribute string. -/
def selected (atb : Option String) (brid : String) : Bool :=
  match atb with
  | none => true
  | some s => s = "" || containsSub s brid

/-- `attrs.get('applyToBranches')`. -/
def getATB (attrs : List (String × String)) : Option String :=
  alookup "applyToBranches" attrs

/-- One pass of the linking loop of `LogicTree.__init__`: for every branch
of the parent set (arena index `p`), if selected by the child set's
`applyToBranches`, assign `branch.childset` to the child object (arena index
`c`).  Only the parent set's branches change. -/
def linkPass (sets : List BranchSet) (p c : Nat) : List BranchSet :=
  let atb := getATB (getSet sets c).attrs
  sets.set p
    { getSet sets p with
      branches := (getSet sets p).branches.map fun b =>
        if selected atb b.brid then { b with childset := some c } else b }

/-- The loop `for i, childset in enumerate(branchsets[1:])` of the source
constructor, rendered over the arena: each pass mutates only the parent
set's branches and attributes never change, so folding the passes in order
reproduces the final state of the shared Python objects. -/
def linkLoop (sets : List BranchSet) (pairs : List (Nat × Nat)) : List BranchSet :=
  pairs.foldl (fun s pc => linkPass s pc.1 pc.2) sets

/-- The `LogicTree` state: the `branchset` dict, mapping each bsid to the
arena index of the owned `BranchSet` object, in insertion order. -/
structure LogicTree where
  branchset : List (String × Nat)
deriving DecidableEq

/-- The dict comprehension of the constructor:
`{bs.attrs['bsid']: bs for bs in branchsets}`; a branch-set without the
`bsid` attribute is a KeyError, modelled as `none`. -/
def buildDict (sets : List BranchSet) (idxs : List Nat) : Option (List (String × Nat)) :=
  idxs.foldlM
    (fun d idx => do
      let k ← alookup "bsid" (getSet sets idx).attrs
      some (dictInsert k idx d))
    []

/-- `LogicTree.__init__` over the arena: the constructor receives a list of
branch-set objects (arena indices), builds the bsid dict and runs the
linking loop over the consecutive pairs, mutating the shared objects in the
arena.  Returns the updated arena together with the new tree. -/
def LogicTree.init (sets : List BranchSet) (idxs : List Nat) :
    Option (List BranchSet × LogicTree) := do
  let d ← buildDict sets idxs
  some (linkLoop sets (idxs.zip idxs.tail), ⟨d⟩)

/-- Building a `LogicTree` from a list of branch-sets: the arena is the list
itself and the constructor receives every object in order. -/
def mkLogicTree (sets : List BranchSet) : Option (List BranchSet × LogicTree) :=
  LogicTree.init sets (List.range sets.length)

/-- `LogicTree.reduce`: look the given bsids up in the dict (a missing one
is a KeyError) and call the constructor again on those shared objects; the
arena is updated in place, so the original tree observes the mutation. -/
def LogicTree.reduce (sets : List BranchSet) (t : LogicTree) (bsids : List String) :
    Option (List BranchSet × LogicTree) := do
  let idxs ← bsids.mapM (fun k => alookup k t.branchset)
  LogicTree.init sets idxs

/-- `LogicTree.rootbranches`: the branches of the first branch-set of the
dict (`next(iter(...))` raises StopIteration on an empty dict). -/
def LogicTree.rootbranches (sets : List BranchSet) (t : LogicTree) : Option (List Branch) :=
  t.branchset.head?.map fun kv => (getSet sets kv.2).branches

/-- `itertools.product` over the branch lists: the last group varies
fastest. -/
def pyProduct : List (List Branch) → List (List Branch)
  | [] => [[]]
  | g :: gs => g.flatMap fun b => (pyProduct gs).map (b :: ·)

/-- The inner loop of full enumeration: lt_path, weight and value are
accumulated over the chosen branches in order, the weight starting at 1. -/
def mkRlz (i : Nat) (branches : List Branch) : Realization :=
  let acc := branches.foldl
    (fun acc b => (acc.1 ++ [b.brid], acc.2.1 * b.weight, acc.2.2 ++ [b.uncertainty]))
    ([], 1, [])
  ⟨acc.2.2, acc.2.1, acc.1, i⟩

/-- The groups of full enumeration:
`[bset.branches for bset in self.branchset.values()]`. -/
def LogicTree.groups (sets : List BranchSet) (t : LogicTree) : List (List Branch) :=
  t.branchset.map fun kv => (getSet sets kv.2).branches

/-- Modelled from the spec: the underlying weighted-choice primitive
(`numpy.random.choice`, not part of these sources).  Per the spec it fails
when the weights do not sum to 1 (within tolerance; exact in this rational
model) and otherwise returns `num` indices below `len`, deterministically in
the seed; the particular pseudo-random sequence is left unspecified by the
spec, so a simple deterministic one is used. -/
def npChoice (len : Nat) (num : Nat) (weights : List ℚ) (seed : Nat) : Option (List Nat) :=
  if weights.sum = 1 then some ((List.range num).map fun k => (seed + k) % len)
  else none

/-- The default object produced by indexing out of range; never hit in the
verified scenarios. -/
def noBranch : Branch := ⟨"", "", "", 0, none⟩

/-- The module-level `sample` helper: collect the weights (always plain
floats in this core), seed the generator, draw `num_samples` indices with
the branch weights as probabilities, and index back into the sequence. -/
def sample (weighted_objects : List Branch) (num_samples : Nat) (seed : Nat) :
    Option (List Branch) := do
  let weights := weighted_objects.map (·.weight)
  let idxs ← npChoice weights.length num_samples weights seed
  some (idxs.map fun idx => weighted_objects.getD idx noBranch)

/-- `LogicTree.sample`: one drawn branch list per branch-set, the i-th set
drawn with `seed + i`; then `n` realizations of weight `1/n`, the i-th
zipping the i-th draw of every list (the source accumulates lt_path and
value in one pass over the lists; two maps are the same).  `1. / n` is a
ZeroDivisionError at `n = 0`. -/
def LogicTree.sample (sets : List BranchSet) (t : LogicTree) (n : Nat) (seed : Nat) :
    Option (List Realization) := do
  let brlists ← t.branchset.enum.mapM
    (fun ikv => LT.sample (getSet sets ikv.2.2).branches n (seed + ikv.1))
  if n = 0 then none
  else
    some ((List.range n).map fun i =>
      let chosen := brlists.map fun brlist => brlist.getD i noBranch
      ⟨chosen.map (·.uncertainty), 1 / (n : ℚ), chosen.map (·.brid), i⟩)

/-- `LogicTree.gen_rlzs`: random sampling when `num_samples` is nonzero
(Python truthiness), otherwise full enumeration of the Cartesian product of
the branch lists with the ordinal as enumeration index. -/
def LogicTree.gen_rlzs (sets : List BranchSet) (t : LogicTree) (num_samples : Nat)
    (seed : Nat) : Option (List Realization) :=
  if num_samples ≠ 0 then LogicTree.sample sets t num_samples seed
  else some ((pyProduct (LogicTree.groups sets t)).enum.map fun p => mkRlz p.1 p.2)

mutual

/-- `count_rlzs`: 1 at a leaf (`childset` is `None`; a `BranchSet`
namedtuple has fields and is always truthy), otherwise the sum over the
child set's branches.  The recursion follows arbitrary object references,
which can form cycles after `reduce`, so fuel bounds the depth; running out
of fuel models the RecursionError Python raises on a cycle. -/
def count_rlzs (sets : List BranchSet) (fuel : Nat) (b : Branch) : Option Nat :=
  match b.childset with
  | none => some 1
  | some j =>
    match fuel with
    | 0 => none
    | f + 1 => (count_rlzs_over sets f (getSet sets j).branches).map List.sum
termination_by (fuel, 0)

/-- `sum(map(count_rlzs, branches))`, with the traversal unfolded so the
recursion is visibly bounded. -/
def count_rlzs_over (sets : List BranchSet) (fuel : Nat) : List Branch → Option (List Nat)
  | [] => some []
  | b :: rest => do
    let n ← count_rlzs sets fuel b
    let ns ← count_rlzs_over sets fuel rest
    some (n :: ns)
termination_by l => (fuel, l.length + 1)

end

/-- One flat record of the serialized branches array: `Branch` is a tuple
subclass of exactly the four record fields, so numpy keeps those and drops
the `childset` reference. -/
structure BranchRec where
  bsid : String
  brid : String
  uncertainty : String
  weight : ℚ
deriving DecidableEq

/-- The numpy record of a branch. -/
def toRec (b : Branch) : BranchRec := ⟨b.bsid, b.brid, b.uncertainty, b.weight⟩

/-- `Branch(*record)`: four arguments, `childset` defaults to `None`. -/
def ofRec (r : BranchRec) : Branch := ⟨r.bsid, r.brid, r.uncertainty, r.weight, none⟩

/-- The dictionary written by `__toh5__`: the branch records in branch-set
then branch order, and the toml blob kept as structured data (the external
toml codec is assumed faithful), mapping each popped bsid to the remaining
attrs. -/
structure H5Dic where
  branches : List BranchRec
  branchsets : List (String × List (String × String))
deriving DecidableEq

/-- `LogicTree.__toh5__`: pop `bsid` out of a copy of each branch-set's
attrs (a KeyError when absent) to key the blob, and flatten the branches in
branch-set then branch order. -/
def LogicTree.toh5 (sets : List BranchSet) (t : LogicTree) : Option H5Dic := do
  let bsetdict ← t.branchset.foldlM
    (fun acc kv => do
      let attrs := (getSet sets kv.2).attrs
      let k ← alookup "bsid" attrs
      some (dictInsert k (aremove "bsid" attrs) acc))
    []
  some ⟨t.branchset.flatMap fun kv => (getSet sets kv.2).branches.map toRec, bsetdict⟩

/-- The keys of the record rows in order of first occurrence. -/
def firstKeys : List BranchRec → List String
  | [] => []
  | r :: rest => r.bsid :: (firstKeys rest).filter (fun k => decide (k ≠ r.bsid))

/-- Modelled from the spec: `general.group_array` (openquake.baselib, not
part of these sources) groups the record rows by their bsid field,
preserving the original relative order within each group, the groups keyed
in order of first occurrence. -/
def group_array (rows : List BranchRec) : List (String × List BranchRec) :=
  (firstKeys rows).map fun k => (k, rows.filter fun r => decide (r.bsid = k))

/-- `LogicTree.__fromh5__`: group the rows by bsid, look each group's attrs
up in the decoded blob (a missing bsid is a KeyError) and rebuild fresh
`BranchSet` and `Branch` objects; `childset` is never assigned and the
linking loop is not re-run.  The result is a fresh arena plus the rebuilt
dict over it (the group keys are pairwise distinct, so plain enumeration is
the dict). -/
def fromh5 (dic : H5Dic) : Option (List BranchSet × LogicTree) := do
  let pairs ← (group_array dic.branches).mapM
    (fun g => do
      let a ← alookup g.1 dic.branchsets
      some (g.1, BranchSet.mk (g.2.map ofRec) a))
  some (pairs.map (·.2), ⟨pairs.enum.map fun p => (p.2.1, p.1)⟩)

/-! ### Derived definitions used to state the properties -/

/-- The final form of one linking assignment: the branch of the parent set
points at the child object (arena index `c`) exactly when selected by the
child's `applyToBranches`; attributes never change during linking, so the
test can read them from the original arena. -/
def linkf (sets : List BranchSet) (c : Nat) (b : Branch) : Branch :=
  if selected (getATB (getSet sets c).attrs) b.brid then { b with childset := some c } else b

/-- The `bsid` attribute of a branch-set. -/
def bsidOf (bs : BranchSet) : Option String := alookup "bsid" bs.attrs

/-- The consecutive parent/child index pairs processed by the constructor of
a tree built over the whole arena in order. -/
def consec (m : Nat) : List (Nat × Nat) := (List.range m).map fun i => (i, i + 1)

/-- A branch-set list is fresh when no branch has been linked yet: every
`childset` reference is still `None`, as produced by `from_xml` or by the
codec. -/
def Fresh (sets : List BranchSet) : Prop :=
  ∀ bs ∈ sets, ∀ b ∈ bs.branches, b.childset = none

/-- Splitting a character list into blank-separated words. -/
def wordsAux (acc : List Char) : List Char → List String
  | [] => if acc.isEmpty then [] else [String.mk acc.reverse]
  | c :: rest =>
    if c = ' ' then
      if acc.isEmpty then wordsAux [] rest
      else String.mk acc.reverse :: wordsAux [] rest
    else wordsAux (c :: acc) rest

/-- The spec reading of `applyToBranches` as a set of branch ids (the
attribute string split on blanks): selected when the filter is absent or
the id is one of the listed ids.  This follows the spec's words, for
comparison with the source's `selected`. -/
def specSelected (atb : Option String) (brid : String) : Bool :=
  match atb with
  | none => true
  | some s => (wordsAux [] s.data).contains brid

/-- Everything of a branch-set except the mutable childset references of
its branches. -/
def stripSet (bs : BranchSet) : List BranchRec × List (String × String) :=
  (bs.branches.map toRec, bs.attrs)

/-- The default realization produced by indexing out of range; never hit in
the verified scenarios. -/
def noRlz : Realization := ⟨[], 0, [], 0⟩

/-- The two-branch-set example tree of the spec:
bs1 = [(b1, A, 0.3), (b2, B, 0.7)], bs2 = [(c1, X, 0.5), (c2, Y, 0.5)],
no applyToBranches. -/
def exSets : List BranchSet :=
  [ ⟨[⟨"bs1", "b1", "A", 3/10, none⟩, ⟨"bs1", "b2", "B", 7/10, none⟩], [("bsid", "bs1")]⟩,
    ⟨[⟨"bs2", "c1", "X", 1/2, none⟩, ⟨"bs2", "c2", "Y", 1/2, none⟩], [("bsid", "bs2")]⟩ ]

/-- The example tree after construction: both branches of bs1 point at the
second branch-set, the last branch-set stays unlinked. -/
def exLinked : List BranchSet :=
  [ ⟨[⟨"bs1", "b1", "A", 3/10, some 1⟩, ⟨"bs1", "b2", "B", 7/10, some 1⟩], [("bsid", "bs1")]⟩,
    ⟨[⟨"bs2", "c1", "X", 1/2, none⟩, ⟨"bs2", "c2", "Y", 1/2, none⟩], [("bsid", "bs2")]⟩ ]

/-- The dict of the example tree. -/
def exT : LogicTree := ⟨[("bs1", 0), ("bs2", 1)]⟩

/-- A two-branch-set tree whose second set has `applyToBranches = "b11 b2"`
while the first set's branch ids are `b1` and `b11`. -/
def subSets : List BranchSet :=
  [ ⟨[⟨"bs1", "b1", "A", 1/2, none⟩, ⟨"bs1", "b11", "B", 1/2, none⟩], [("bsid", "bs1")]⟩,
    ⟨[⟨"bs2", "c1", "X", 1, none⟩],
      [("bsid", "bs2"), ("applyToBranches", "b11 b2")]⟩ ]

/-- A two-branch-set tree whose second set's `applyToBranches` names an id
that occurs nowhere among the first set's branches. -/
def orphanSets : List BranchSet :=
  [ ⟨[⟨"bs1", "b1", "A", 1, none⟩], [("bsid", "bs1")]⟩,
    ⟨[⟨"bs2", "c1", "X", 1, none⟩],
      [("bsid", "bs2"), ("applyToBranches", "zzz")]⟩ ]

/-- A three-branch-set tree with an `applyToBranches` filter on the third
set selecting only branch `a2` of the second set. -/
def filtSets : List BranchSet :=
  [ ⟨[⟨"bs1", "b1", "A", 1, none⟩], [("bsid", "bs1")]⟩,
    ⟨[⟨"bs2", "a1", "B", 1/2, none⟩, ⟨"bs2", "a2", "C", 1/2, none⟩], [("bsid", "bs2")]⟩,
    ⟨[⟨"bs3", "c1", "X", 1, none⟩],
      [("bsid", "bs3"), ("applyToBranches", "a2")]⟩ ]

/-- `subSets` after construction: both b1 and b11 are linked, because both
ids occur as substrings of the attribute string. -/
def subLinked : List BranchSet :=
  [ ⟨[⟨"bs1", "b1", "A", 1/2, some 1⟩, ⟨"bs1", "b11", "B", 1/2, some 1⟩], [("bsid", "bs1")]⟩,
    ⟨[⟨"bs2", "c1", "X", 1, none⟩],
      [("bsid", "bs2"), ("applyToBranches", "b11 b2")]⟩ ]

/-- The dict of the `subSets` tree. -/
def subT : LogicTree := ⟨[("bs1", 0), ("bs2", 1)]⟩

/-- `filtSets` after construction: a1 is excluded by the third set's
filter and stays a leaf, a2 is linked to the third set. -/
def filtLinked : List BranchSet :=
  [ ⟨[⟨"bs1", "b1", "A", 1, some 1⟩], [("bsid", "bs1")]⟩,
    ⟨[⟨"bs2", "a1", "B", 1/2, none⟩, ⟨"bs2", "a2", "C", 1/2, some 2⟩], [("bsid", "bs2")]⟩,
    ⟨[⟨"bs3", "c1", "X", 1, none⟩],
      [("bsid", "bs3"), ("applyToBranches", "a2")]⟩ ]

/-- The dict of the `filtSets` tree. -/
def filtT : LogicTree := ⟨[("bs1", 0), ("bs2", 1), ("bs3", 2)]⟩

/-- The arena of the example tree after `reduce(["bs2", "bs1"])`: the shared
second branch-set got its branches re-linked to the first one, so the
original tree's state changed. -/
def exReduced : List BranchSet :=
  [ ⟨[⟨"bs1", "b1", "A", 3/10, some 1⟩, ⟨"bs1", "b2", "B", 7/10, some 1⟩], [("bsid", "bs1")]⟩,
    ⟨[⟨"bs2", "c1", "X", 1/2, some 0⟩, ⟨"bs2", "c2", "Y", 1/2, some 0⟩], [("bsid", "bs2")]⟩ ]

/-- The dict of the reduced tree. -/
def exReducedT : LogicTree := ⟨[("bs2", 1), ("bs1", 0)]⟩

/-- A one-branch-set tree whose weights sum to 1/2, not 1. -/
def badSets : List BranchSet := [⟨[⟨"bs1", "b1", "A", 1/2, none⟩], [("bsid", "bs1")]⟩]

/-- The dict of the bad-weights tree. -/
def badT : LogicTree := ⟨[("bs1", 0)]⟩

/-! ### Bridging lemmas for `List.mapM` over `Option` -/

theorem mapM_option_nil (f : α → Option β) : List.mapM f [] = some [] := rfl

theorem mapM_option_cons (f : α → Option β) (a : α) (l : List α) :
    List.mapM f (a :: l) =
      (f a).bind fun b => (List.mapM f l).bind fun bs => some (b :: bs) := by
  rw [← List.mapM'_eq_mapM, List.mapM'_cons, List.mapM'_eq_mapM]
  rfl

theorem mapM_option_congr (f : α → Option β) (g : α → β) :
    ∀ (l : List α), (∀ a ∈ l, f a = some (g a)) → List.mapM f l = some (l.map g)
  | [], _ => rfl
  | a :: l, h => by
    rw [mapM_option_cons, h a (by simp),
      mapM_option_congr f g l (fun x hx => h x (by simp [hx]))]
    rfl

theorem mapM_option_none (f : α → Option β) :
    ∀ (l : List α) (a : α), a ∈ l → f a = none → List.mapM f l = none
  | [], x, hx, _ => by simp at hx
  | a :: l, x, hx, hfx => by
    rw [mapM_option_cons]
    rcases List.mem_cons.1 hx with h | h
    · subst h; rw [hfx]; rfl
    · cases hfa : f a
      · rfl
      · rw [mapM_option_none f l x h hfx]; rfl

theorem mapM_option_isSome (f : α → Option β) :
    ∀ (l : List α), (∀ a ∈ l, (f a).isSome) → (List.mapM f l).isSome
  | [], _ => rfl
  | a :: l, h => by
    rw [mapM_option_cons]
    rcases Option.isSome_iff_exists.1 (h a (by simp)) with ⟨b, hb⟩
    rcases Option.isSome_iff_exists.1
      (mapM_option_isSome f l (fun x hx => h x (by simp [hx]))) with ⟨bs, hbs⟩
    rw [hb, hbs]
    rfl

/-! ### Lemmas about the dict primitives -/

theorem alookup_eq_none (k : String) :
    ∀ (l : List (String × α)), k ∉ l.map Prod.fst → alookup k l = none
  | [], _ => rfl
  | p :: l, h => by
    have h1 : ¬ p.1 = k := fun he => h (by simp [he])
    have h2 : k ∉ l.map Prod.fst := fun hm => h (by simp [hm])
    simp only [alookup, if_neg h1]
    exact alookup_eq_none k l h2

theorem dictInsert_eq_append (k : String) (v : α) :
    ∀ (l : List (String × α)), k ∉ l.map Prod.fst → dictInsert k v l = l ++ [(k, v)]
  | [], _ => rfl
  | p :: l, h => by
    have h1 : ¬ p.1 = k := fun he => h (by simp [he])
    have h2 : k ∉ l.map Prod.fst := fun hm => h (by simp [hm])
    simp only [dictInsert, if_neg h1, dictInsert_eq_append k v l h2]
    simp

theorem alookup_zip_nodup :
    ∀ (ks : List String) (vs : List α), ks.Nodup → ∀ p ∈ ks.zip vs,
      alookup p.1 (ks.zip vs) = some p.2
  | [], _, _, p, hp => by simp at hp
  | k :: ks, [], _, p, hp => by simp at hp
  | k :: ks, v :: vs, hnd, p, hp => by
    rcases List.mem_cons.1 (by simpa [List.zip_cons_cons] using hp) with h | h
    · subst h; simp [List.zip_cons_cons, alookup]
    · have hne : k ≠ p.1 := by
        intro he
        exact (List.nodup_cons.1 hnd).1
          (he ▸ (List.of_mem_zip h).1)
      simpa [List.zip_cons_cons, alookup, hne] using
        alookup_zip_nodup ks vs (List.nodup_cons.1 hnd).2 p h

/-- The common shape of the two dict-building folds of the source (the
constructor's comprehension and the toh5 blob): when every key extraction
succeeds and the keys are pairwise new, the fold appends the pairs in
order. -/
theorem foldlM_dictInsert_eq (f : β → Option String) (g : β → α) :
    ∀ (l : List β) (ks : List String) (d : List (String × α)),
      l.mapM f = some ks → ((d.map Prod.fst) ++ ks).Nodup →
      l.foldlM (fun acc x => do
        let k ← f x
        some (dictInsert k (g x) acc)) d = some (d ++ ks.zip (l.map g))
  | [], ks, d, hks, hnd => by
    cases Option.some.inj (hks : some ([] : List String) = some ks)
    simp [List.foldlM]
  | x :: l, ks, d, hks, hnd => by
    rw [mapM_option_cons] at hks
    cases hfx : f x with
    | none => rw [hfx] at hks; simp at hks
    | some k =>
      rw [hfx] at hks
      cases hl : List.mapM f l with
      | none => rw [hl] at hks; simp at hks
      | some ks2 =>
        rw [hl] at hks
        cases (by simpa using hks : k :: ks2 = ks)
        have hknd : k ∉ d.map Prod.fst := fun hm =>
          ((List.nodup_append.1 hnd).2.2 hm) (by simp)
        have hd2 : dictInsert k (g x) d = d ++ [(k, g x)] :=
          dictInsert_eq_append _ _ _ hknd
        have hnd2 : ((d ++ [(k, g x)]).map Prod.fst ++ ks2).Nodup := by
          simpa [List.append_assoc] using hnd
        have ih := foldlM_dictInsert_eq f g l ks2 (d ++ [(k, g x)]) hl hnd2
        rw [List.foldlM_cons]
        simp only [hfx, Option.bind_eq_bind, Option.some_bind, hd2] at ih ⊢
        rw [ih]
        simp [List.append_assoc]

/-! ### Lemmas about the arena -/

theorem getSet_eq_getElem (sets : List BranchSet) (i : Nat) (h : i < sets.length) :
    getSet sets i = sets[i] := List.getD_eq_getElem sets _ h

theorem getSet_oob (sets : List BranchSet) (i : Nat) (h : sets.length ≤ i) :
    getSet sets i = ⟨[], []⟩ := List.getD_eq_default sets _ h

theorem getSet_set_self (sets : List BranchSet) (p : Nat) (bs : BranchSet)
    (h : p < sets.length) : getSet (sets.set p bs) p = bs := by
  have hp : p < (sets.set p bs).length := by simpa using h
  rw [getSet_eq_getElem _ _ hp]
  simp

theorem getSet_set_ne (sets : List BranchSet) (p q : Nat) (bs : BranchSet)
    (h : p ≠ q) : getSet (sets.set p bs) q = getSet sets q := by
  by_cases hq : q < sets.length
  · have hq2 : q < (sets.set p bs).length := by simpa using hq
    rw [getSet_eq_getElem _ _ hq2, getSet_eq_getElem _ _ hq]
    exact List.getElem_set_ne h hq2
  · rw [getSet_oob _ _ (by simpa using Nat.le_of_not_lt hq),
      getSet_oob _ _ (Nat.le_of_not_lt hq)]

theorem map_range_getSet (sets : List BranchSet) :
    (List.range sets.length).map (getSet sets) = sets := by
  apply List.ext_getElem
  · simp
  · intro i h1 h2
    simp only [List.getElem_map, List.getElem_range]
    exact getSet_eq_getElem sets i h2

/-! ### The linking loop -/

theorem linkPass_length (sets : List BranchSet) (p c : Nat) :
    (linkPass sets p c).length = sets.length := by
  simp [linkPass]

theorem getSet_linkPass_ne (sets : List BranchSet) (p c i : Nat) (h : p ≠ i) :
    getSet (linkPass sets p c) i = getSet sets i :=
  getSet_set_ne _ _ _ _ h

theorem getSet_linkPass_self (sets : List BranchSet) (p c : Nat) (h : p < sets.length) :
    getSet (linkPass sets p c) p =
      ⟨(getSet sets p).branches.map fun b =>
          if selected (getATB (getSet sets c).attrs) b.brid
          then { b with childset := some c } else b,
        (getSet sets p).attrs⟩ :=
  getSet_set_self _ _ _ h

theorem getSet_linkPass_oob (sets : List BranchSet) (p c : Nat) (h : sets.length ≤ p) :
    linkPass sets p c = sets := by
  unfold linkPass
  exact List.set_eq_of_length_le h

theorem linkPass_attrs (sets : List BranchSet) (p c i : Nat) :
    (getSet (linkPass sets p c) i).attrs = (getSet sets i).attrs := by
  by_cases hp : p < sets.length
  · by_cases he : p = i
    · subst he; rw [getSet_linkPass_self _ _ _ hp]
    · rw [getSet_linkPass_ne _ _ _ _ he]
  · rw [getSet_linkPass_oob _ _ _ (Nat.le_of_not_lt hp)]

theorem linkLoop_length (pairs : List (Nat × Nat)) :
    ∀ (sets : List BranchSet), (linkLoop sets pairs).length = sets.length := by
  induction pairs with
  | nil => intro sets; rfl
  | cons pc rest ih =>
    intro sets
    show (linkLoop (linkPass sets pc.1 pc.2) rest).length = _
    rw [ih, linkPass_length]

theorem linkLoop_append (sets : List BranchSet) (ps qs : List (Nat × Nat)) :
    linkLoop sets (ps ++ qs) = linkLoop (linkLoop sets ps) qs :=
  List.foldl_append ..

theorem consec_succ (m : Nat) : consec (m + 1) = consec m ++ [(m, m + 1)] := by
  simp [consec, List.range_succ]

/-- The state of the arena after the first `m` passes of the constructor's
linking loop: sets below `m` carry their final branches, sets from `m` on
are untouched.  The `applyToBranches` test of every pass reads attributes,
which no pass changes, so it can be read off the original arena. -/
theorem linkLoop_consec (sets : List BranchSet) :
    ∀ m, m ≤ sets.length →
      ∀ i, getSet (linkLoop sets (consec m)) i =
        if i < m
        then ⟨(getSet sets i).branches.map (linkf sets (i + 1)), (getSet sets i).attrs⟩
        else getSet sets i := by
  intro m
  induction m with
  | zero => intro _ i; simp [consec, linkLoop]
  | succ m ih =>
    intro hm i
    have hm' : m ≤ sets.length := Nat.le_of_succ_le hm
    rw [consec_succ, linkLoop_append]
    set s1 := linkLoop sets (consec m) with hs1
    have hchar := ih hm'
    show getSet (linkPass s1 m (m + 1)) i = _
    by_cases hi : m = i
    · subst hi
      have hlen : m < s1.length := by rw [hs1, linkLoop_length]; omega
      rw [getSet_linkPass_self _ _ _ hlen]
      have h1 : getSet s1 m = getSet sets m := by
        rw [hchar m]; simp
      have h2 : (getSet s1 (m + 1)).attrs = (getSet sets (m + 1)).attrs := by
        rw [hchar (m + 1)]; simp
      rw [h1, h2, if_pos (Nat.lt_succ_self m)]
      rfl
    · rw [getSet_linkPass_ne _ _ _ _ hi, hchar i]
      by_cases h3 : i < m
      · rw [if_pos h3, if_pos (Nat.lt_succ_of_lt h3)]
      · rw [if_neg h3, if_neg (by omega)]

theorem zip_range'_consec :
    ∀ (m s : Nat), (List.range' s (m + 1)).zip (List.range' (s + 1) m) =
      (List.range' s m).map fun i => (i, i + 1)
  | 0, s => by simp
  | m + 1, s => by
    have hA : List.range' (s + 1) (m + 1) = (s + 1) :: List.range' (s + 1 + 1) m :=
      List.range'_succ ..
    rw [List.range'_succ, hA, List.zip_cons_cons, ← hA, zip_range'_consec m (s + 1),
      List.range'_succ, List.map_cons]

/-- The consecutive pairs fed to the linking loop by `mkLogicTree`. -/
theorem zip_range_tail (n : Nat) :
    (List.range n).zip (List.range n).tail = consec (n - 1) := by
  cases n with
  | zero => rfl
  | succ m =>
    rw [List.range_eq_range', List.range'_succ]
    show (List.range' 0 (m + 1)).zip (List.range' 1 m) = _
    rw [zip_range'_consec m 0, consec, List.range_eq_range']
    rfl

theorem mapM_option_comp (g : α → β) (f : β → Option γ) :
    ∀ (l : List α), List.mapM (fun a => f (g a)) l = List.mapM f (l.map g)
  | [] => rfl
  | a :: l => by
    rw [List.map_cons, mapM_option_cons, mapM_option_cons, mapM_option_comp g f l]

theorem buildDict_range (sets : List BranchSet) (ks : List String)
    (hks : sets.mapM bsidOf = some ks) (hnd : ks.Nodup) :
    buildDict sets (List.range sets.length) = some (ks.zip (List.range sets.length)) := by
  have h1 : (List.range sets.length).mapM (fun i => bsidOf (getSet sets i)) = some ks := by
    rw [mapM_option_comp (getSet sets) bsidOf, map_range_getSet]
    exact hks
  have h2 := foldlM_dictInsert_eq (fun i => bsidOf (getSet sets i)) id
    (List.range sets.length) ks [] h1 (by simpa using hnd)
  simpa [buildDict, bsidOf] using h2

/-- Master characterization of construction: with distinct bsids the dict
pairs each bsid with its arena index in order, and the arena after the
linking loop carries each non-final set's branches in linked form. -/
theorem mk_char (sets : List BranchSet) (ks : List String)
    (hks : sets.mapM bsidOf = some ks) (hnd : ks.Nodup) :
    ∃ sets2,
      mkLogicTree sets = some (sets2, ⟨ks.zip (List.range sets.length)⟩) ∧
      sets2.length = sets.length ∧
      (∀ i, getSet sets2 i =
        if i + 1 < sets.length
        then ⟨(getSet sets i).branches.map (linkf sets (i + 1)), (getSet sets i).attrs⟩
        else getSet sets i) := by
  refine ⟨linkLoop sets ((List.range sets.length).zip (List.range sets.length).tail),
    ?_, ?_, ?_⟩
  · unfold mkLogicTree LogicTree.init
    rw [buildDict_range sets ks hks hnd]
    rfl
  · rw [linkLoop_length]
  · intro i
    rw [zip_range_tail, linkLoop_consec sets (sets.length - 1) (Nat.sub_le ..) i]
    by_cases h : i + 1 < sets.length
    · rw [if_pos (by omega), if_pos h]
    · rw [if_neg (by omega), if_neg h]

theorem mapM_option_length (f : α → Option β) :
    ∀ (l : List α) (l2 : List β), List.mapM f l = some l2 → l2.length = l.length
  | [], l2, h => by cases Option.some.inj (h : some ([] : List β) = some l2); rfl
  | a :: l, l2, h => by
    rw [mapM_option_cons] at h
    cases hfa : f a with
    | none => rw [hfa] at h; simp at h
    | some b =>
      rw [hfa] at h
      cases hl : List.mapM f l with
      | none => rw [hl] at h; simp at h
      | some bs =>
        rw [hl] at h
        cases (by simpa using h : b :: bs = l2)
        simpa using mapM_option_length f l bs hl

/-! ### Full enumeration -/

theorem mkRlz_foldl :
    ∀ (branches : List Branch) (p : List String) (w : ℚ) (v : List String),
      branches.foldl
        (fun acc b => (acc.1 ++ [b.brid], acc.2.1 * b.weight, acc.2.2 ++ [b.uncertainty]))
        (p, w, v) =
      (p ++ branches.map (·.brid), w * (branches.map (·.weight)).prod,
        v ++ branches.map (·.uncertainty))
  | [], p, w, v => by simp
  | b :: branches, p, w, v => by
    rw [List.foldl_cons, mkRlz_foldl branches]
    simp [mul_assoc]

theorem mkRlz_eq (i : Nat) (branches : List Branch) :
    mkRlz i branches =
      ⟨branches.map (·.uncertainty), (branches.map (·.weight)).prod,
        branches.map (·.brid), i⟩ := by
  unfold mkRlz
  rw [mkRlz_foldl]
  simp

theorem sum_map_const_nat (c : Nat) :
    ∀ (l : List α), (l.map fun _ => c).sum = l.length * c
  | [] => by simp
  | a :: l => by simp [sum_map_const_nat c l, Nat.succ_mul, Nat.add_comm]

theorem pyProduct_length :
    ∀ (gs : List (List Branch)), (pyProduct gs).length = (gs.map List.length).prod
  | [] => rfl
  | g :: gs => by
    simp only [pyProduct, List.length_flatMap, List.map_cons, List.prod_cons]
    have h1 : (g.map (List.length ∘ fun b => (pyProduct gs).map fun x => b :: x)) =
        g.map fun _ => (pyProduct gs).length := by
      apply List.map_congr_left
      intro b _
      show ((pyProduct gs).map fun x => b :: x).length = _
      rw [List.length_map]
    rw [h1, sum_map_const_nat, pyProduct_length gs]

theorem sum_flatMap_q (f : α → List ℚ) :
    ∀ (l : List α), (l.flatMap f).sum = (l.map fun a => (f a).sum).sum
  | [] => rfl
  | a :: l => by simp [List.flatMap_cons, sum_flatMap_q f l]

theorem sum_map_mul_right_q (f : α → ℚ) (c : ℚ) :
    ∀ (l : List α), (l.map fun x => f x * c).sum = (l.map f).sum * c
  | [] => by simp
  | a :: l => by simp [sum_map_mul_right_q f c l, add_mul]

theorem pyProduct_weight_sum :
    ∀ (gs : List (List Branch)),
      ((pyProduct gs).map fun brs => (brs.map (·.weight)).prod).sum =
      (gs.map fun g => (g.map (·.weight)).sum).prod
  | [] => by simp [pyProduct]
  | g :: gs => by
    simp only [pyProduct, List.map_flatMap, List.map_cons, List.prod_cons]
    have h1 : ∀ b : Branch,
        (((pyProduct gs).map (b :: ·)).map fun brs => (brs.map (·.weight)).prod) =
        (pyProduct gs).map fun brs => b.weight * (brs.map (·.weight)).prod := by
      intro b
      rw [List.map_map]
      apply List.map_congr_left
      intro brs _
      simp
    calc (g.flatMap fun b =>
            ((pyProduct gs).map (b :: ·)).map fun brs => (brs.map (·.weight)).prod).sum
        = (g.map fun b =>
            (((pyProduct gs).map (b :: ·)).map fun brs => (brs.map (·.weight)).prod).sum).sum := by
          rw [sum_flatMap_q]
      _ = (g.map fun b =>
            b.weight * ((pyProduct gs).map fun brs => (brs.map (·.weight)).prod).sum).sum := by
          congr 1
          apply List.map_congr_left
          intro b _
          rw [h1 b, List.sum_map_mul_left]
      _ = (g.map (·.weight)).sum * (gs.map fun g2 => (g2.map (·.weight)).sum).prod := by
          rw [← pyProduct_weight_sum gs]
          exact sum_map_mul_right_q _ _ g

/-- Full enumeration in closed form: the ordinal is the enumeration index
and each realization projects the chosen branches. -/
theorem gen_rlzs_full (sets : List BranchSet) (t : LogicTree) (seed : Nat) :
    LogicTree.gen_rlzs sets t 0 seed =
      some ((pyProduct (LogicTree.groups sets t)).enum.map fun p =>
        ⟨p.2.map (·.uncertainty), (p.2.map (·.weight)).prod, p.2.map (·.brid), p.1⟩) := by
  unfold LogicTree.gen_rlzs
  rw [if_neg (by simp)]
  congr 1
  apply List.map_congr_left
  intro p _
  exact mkRlz_eq p.1 p.2

/-- The groups of a constructed tree carry the input branch-sets' branch
records in order: linking only assigns childset references. -/
theorem mk_groups_toRec (sets sets2 : List BranchSet) (t : LogicTree) (ks : List String)
    (hks : sets.mapM bsidOf = some ks) (hnd : ks.Nodup)
    (hmk : mkLogicTree sets = some (sets2, t)) :
    (LogicTree.groups sets2 t).map (List.map toRec) =
      sets.map fun bs => bs.branches.map toRec := by
  obtain ⟨s2, h1, h2, h3⟩ := mk_char sets ks hks hnd
  rw [hmk] at h1
  injection h1 with h1
  injection h1 with he1 he2
  subst he1
  subst he2
  have hkslen : ks.length = sets.length := mapM_option_length bsidOf sets ks hks
  have hgr : LogicTree.groups sets2 ⟨ks.zip (List.range sets.length)⟩ =
      (List.range sets.length).map fun i => (getSet sets2 i).branches := by
    show (ks.zip (List.range sets.length)).map (fun kv => (getSet sets2 kv.2).branches) = _
    have hc : (fun kv : String × Nat => (getSet sets2 kv.2).branches) =
        (fun i => (getSet sets2 i).branches) ∘ Prod.snd := rfl
    rw [hc, ← List.map_map, List.map_snd_zip _ _ (by simp [hkslen])]
  rw [hgr, List.map_map]
  have hstep : ∀ i ∈ List.range sets.length,
      ((List.map toRec ∘ fun i => (getSet sets2 i).branches) i) =
      ((fun i => (getSet sets i).branches.map toRec) i) := by
    intro i _
    show (getSet sets2 i).branches.map toRec = _
    rw [h3 i]
    by_cases hc : i + 1 < sets.length
    · rw [if_pos hc]
      show ((getSet sets i).branches.map (linkf sets (i + 1))).map toRec = _
      rw [List.map_map]
      apply List.map_congr_left
      intro b _
      show toRec (linkf sets (i + 1) b) = toRec b
      unfold linkf
      by_cases hs : selected (getATB (getSet sets (i + 1)).attrs) b.brid
      · rw [if_pos hs]; rfl
      · rw [if_neg hs]
    · rw [if_neg hc]
  rw [List.map_congr_left hstep]
  have h4 : (List.range sets.length).map (fun i => (getSet sets i).branches.map toRec) =
      ((List.range sets.length).map (getSet sets)).map fun bs => bs.branches.map toRec := by
    rw [List.map_map]
    rfl
  rw [h4, map_range_getSet]

theorem map_length_of_map_toRec (gs : List (List Branch)) (rs : List (List BranchRec))
    (h : gs.map (List.map toRec) = rs) : gs.map List.length = rs.map List.length := by
  subst h
  rw [List.map_map]
  apply List.map_congr_left
  intro g _
  show g.length = (g.map toRec).length
  rw [List.length_map]

theorem map_weight_of_map_toRec (gs : List (List Branch)) (rs : List (List BranchRec))
    (h : gs.map (List.map toRec) = rs) :
    gs.map (List.map fun b => b.weight) = rs.map (List.map fun r => r.weight) := by
  subst h
  rw [List.map_map]
  apply List.map_congr_left
  intro g _
  show g.map (fun b => b.weight) = (g.map toRec).map fun r => r.weight
  rw [List.map_map]
  rfl

/-! ### The claims about full enumeration -/

/-- Claim C3: for every well-formed LogicTree (distinct bsids), full
enumeration with num_samples = 0 yields exactly the product over all
branch-sets of the number of branches in that branch-set, regardless of any
applyToBranches filters: enumeration is over the flat per-branch-set lists,
not a tree walk. -/
theorem C3_full_enumeration_count (sets : List BranchSet) (ks : List String) (seed : Nat)
    (hks : sets.mapM bsidOf = some ks) (hnd : ks.Nodup) :
    ((mkLogicTree sets).bind fun p => LogicTree.gen_rlzs p.1 p.2 0 seed).map List.length =
      some (sets.map fun bs => bs.branches.length).prod := by
  obtain ⟨s2, h1, h2, h3⟩ := mk_char sets ks hks hnd
  have hG := mk_groups_toRec sets s2 ⟨ks.zip (List.range sets.length)⟩ ks hks hnd h1
  rw [h1]
  show (LogicTree.gen_rlzs s2 ⟨ks.zip (List.range sets.length)⟩ 0 seed).map List.length = _
  rw [gen_rlzs_full]
  have hlen := map_length_of_map_toRec _ _ hG
  simp only [Option.map_some', List.length_map, List.enum_length]
  rw [pyProduct_length, hlen, List.map_map]
  refine congrArg some (congrArg List.prod (List.map_congr_left ?_))
  intro bs _
  show (bs.branches.map toRec).length = bs.branches.length
  rw [List.length_map]

/-- Claim C4: the sum of the weights of all realizations yielded by full
enumeration equals the product over branch-sets of the sums of the branch
weights, and in particular equals 1 when every branch-set's weights sum
to 1. -/
theorem C4_full_enumeration_weight_sum (sets : List BranchSet) (ks : List String)
    (seed : Nat) (hks : sets.mapM bsidOf = some ks) (hnd : ks.Nodup) :
    ((mkLogicTree sets).bind fun p => LogicTree.gen_rlzs p.1 p.2 0 seed).map
        (fun rlzs => (rlzs.map fun r => r.weight).sum) =
      some (sets.map fun bs => (bs.branches.map fun b => b.weight).sum).prod ∧
    ((∀ bs ∈ sets, (bs.branches.map fun b => b.weight).sum = 1) →
      ((mkLogicTree sets).bind fun p => LogicTree.gen_rlzs p.1 p.2 0 seed).map
        (fun rlzs => (rlzs.map fun r => r.weight).sum) = some 1) := by
  obtain ⟨s2, h1, h2, h3⟩ := mk_char sets ks hks hnd
  have hG := mk_groups_toRec sets s2 ⟨ks.zip (List.range sets.length)⟩ ks hks hnd h1
  have hW := map_weight_of_map_toRec _ _ hG
  have hmain : ((mkLogicTree sets).bind fun p => LogicTree.gen_rlzs p.1 p.2 0 seed).map
      (fun rlzs => (rlzs.map fun r => r.weight).sum) =
      some (sets.map fun bs => (bs.branches.map fun b => b.weight).sum).prod := by
    rw [h1]
    show (LogicTree.gen_rlzs s2 ⟨ks.zip (List.range sets.length)⟩ 0 seed).map _ = _
    rw [gen_rlzs_full]
    simp only [Option.map_some', Option.some.injEq, List.map_map]
    have hsnd : (LogicTree.groups s2 ⟨ks.zip (List.range sets.length)⟩).map
        (List.map fun b => b.weight) =
        sets.map fun bs => bs.branches.map fun b => b.weight := by
      rw [hW, List.map_map]
      apply List.map_congr_left
      intro bs _
      show (bs.branches.map toRec).map (fun r => r.weight) = _
      rw [List.map_map]
      rfl
    calc ((pyProduct (LogicTree.groups s2 ⟨ks.zip (List.range sets.length)⟩)).enum.map
            ((fun r : Realization => r.weight) ∘ fun p =>
              ⟨p.2.map (·.uncertainty), (p.2.map (·.weight)).prod, p.2.map (·.brid), p.1⟩)).sum
        = ((pyProduct (LogicTree.groups s2 ⟨ks.zip (List.range sets.length)⟩)).enum.map
            ((fun brs : List Branch => (brs.map (·.weight)).prod) ∘ Prod.snd)).sum := rfl
      _ = (((pyProduct (LogicTree.groups s2 ⟨ks.zip (List.range sets.length)⟩)).enum.map
            Prod.snd).map fun brs => (brs.map (·.weight)).prod).sum := by
          rw [List.map_map]
      _ = ((pyProduct (LogicTree.groups s2 ⟨ks.zip (List.range sets.length)⟩)).map
            fun brs => (brs.map (·.weight)).prod).sum := by
          rw [List.enum_map_snd]
      _ = ((LogicTree.groups s2 ⟨ks.zip (List.range sets.length)⟩).map
            fun g => (g.map (·.weight)).sum).prod := pyProduct_weight_sum _
      _ = (sets.map fun bs => (bs.branches.map fun b => b.weight).sum).prod := by
          have : (LogicTree.groups s2 ⟨ks.zip (List.range sets.length)⟩).map
              (fun g => (g.map (·.weight)).sum) =
              ((LogicTree.groups s2 ⟨ks.zip (List.range sets.length)⟩).map
                (List.map fun b => b.weight)).map List.sum := by
            rw [List.map_map]
            rfl
          rw [this, hsnd, List.map_map]
          rfl
  refine ⟨hmain, fun hone => ?_⟩
  rw [hmain]
  congr 1
  apply List.prod_eq_one
  intro x hx
  obtain ⟨bs, hbs, rfl⟩ := List.mem_map.1 hx
  exact hone bs hbs

/-- Claim C5: full enumeration yields realizations in Cartesian-product
order over the branch lists in branch-set insertion order (later branch-sets
varying fastest), with lt_path the chosen branch ids, value the chosen
uncertainty values, weight the product of the chosen weights and ordinal the
sequential index from 0; on the concrete two-branch-set example tree it
yields exactly b1c1, b1c2, b2c1, b2c2 with weights 0.15, 0.15, 0.35, 0.35. -/
theorem C5_full_enumeration_order :
    (∀ (sets : List BranchSet) (t : LogicTree) (seed : Nat),
      LogicTree.gen_rlzs sets t 0 seed =
        some ((pyProduct (LogicTree.groups sets t)).enum.map fun p =>
          ⟨p.2.map (·.uncertainty), (p.2.map (·.weight)).prod, p.2.map (·.brid), p.1⟩)) ∧
    ((mkLogicTree exSets).bind fun p => LogicTree.gen_rlzs p.1 p.2 0 42) =
      some [⟨["A", "X"], 3/20, ["b1", "c1"], 0⟩, ⟨["A", "Y"], 3/20, ["b1", "c2"], 1⟩,
            ⟨["B", "X"], 7/20, ["b2", "c1"], 2⟩, ⟨["B", "Y"], 7/20, ["b2", "c2"], 3⟩] := by
  constructor
  · exact gen_rlzs_full
  · simp [mkLogicTree, LogicTree.init, buildDict, alookup, getSet, exSets, dictInsert,
      linkLoop, linkPass, getATB, selected, LogicTree.gen_rlzs, LogicTree.groups,
      pyProduct, mkRlz, List.foldlM, List.range_succ, List.enum_eq_zip_range]
    norm_num

/-! ### The linking claims -/

/-- Linking characterization of constructed trees on fresh input: each
branch of branch-set `i` points at branch-set `i + 1` exactly when that set
exists and its `applyToBranches` selects the branch (Python truthiness and
substring semantics), and carries `none` otherwise. -/
theorem mk_childset (sets sets2 : List BranchSet) (t : LogicTree) (ks : List String)
    (hks : sets.mapM bsidOf = some ks) (hnd : ks.Nodup) (hfr : Fresh sets)
    (hmk : mkLogicTree sets = some (sets2, t)) :
    ∀ i, (getSet sets2 i).branches =
      (getSet sets i).branches.map fun b =>
        { b with childset :=
            if i + 1 < sets.length ∧
                selected (getATB (getSet sets (i + 1)).attrs) b.brid = true
            then some (i + 1) else none } := by
  obtain ⟨s2, h1, h2, h3⟩ := mk_char sets ks hks hnd
  rw [hmk] at h1
  injection h1 with h1
  injection h1 with he1 he2
  subst he1
  intro i
  have hfresh : ∀ b ∈ (getSet sets i).branches, b.childset = none := by
    intro b hb
    by_cases hi : i < sets.length
    · exact hfr (getSet sets i)
        (by rw [getSet_eq_getElem sets i hi]; exact List.getElem_mem hi) b hb
    · rw [getSet_oob sets i (Nat.le_of_not_lt hi)] at hb
      simp at hb
  rw [h3 i]
  by_cases hc : i + 1 < sets.length
  · rw [if_pos hc]
    show (getSet sets i).branches.map (linkf sets (i + 1)) = _
    apply List.map_congr_left
    intro b hb
    unfold linkf
    by_cases hs : selected (getATB (getSet sets (i + 1)).attrs) b.brid
    · rw [if_pos hs, if_pos ⟨hc, hs⟩]
    · rw [if_neg hs, if_neg (by intro h; exact hs h.2)]
      rw [← hfresh b hb]
  · rw [if_neg hc]
    conv_lhs => rw [← List.map_id ((getSet sets i).branches)]
    apply List.map_congr_left
    intro b hb
    show b = _
    rw [if_neg (fun h => hc h.1), ← hfresh b hb]

/-- Claim C2 as stated is false on the source: with
`applyToBranches = "b11 b2"`, branch `b1` is linked even though the id set
{b11, b2} does not contain it, because the source tests substring
containment on the attribute string. -/
theorem C2_counterexample :
    (mkLogicTree subSets).map
      (fun p : List BranchSet × LogicTree => decide (∀ b ∈ (getSet p.1 0).branches,
        (b.childset = some 1 ↔
          (getATB (getSet subSets 1).attrs = none ∨
            specSelected (getATB (getSet subSets 1).attrs) b.brid = true)))) =
      some false := by decide

/-- Claim C2 (amended): after construction, each branch of branch-set i has
child_branchset = branch-set i+1 exactly when branch-set i+1 exists and its
applyToBranches attribute is absent, empty, or contains the branch's id as a
substring of the attribute string; otherwise (and in the last branch-set)
child_branchset stays null. -/
theorem C2_linking_postcondition (sets sets2 : List BranchSet) (t : LogicTree)
    (ks : List String) (hks : sets.mapM bsidOf = some ks) (hnd : ks.Nodup)
    (hfr : Fresh sets) (hmk : mkLogicTree sets = some (sets2, t)) :
    ∀ i, (getSet sets2 i).branches =
      (getSet sets i).branches.map fun b =>
        { b with childset :=
            if i + 1 < sets.length ∧
                selected (getATB (getSet sets (i + 1)).attrs) b.brid = true
            then some (i + 1) else none } :=
  mk_childset sets sets2 t ks hks hnd hfr hmk

/-- Witness for the amended claim C2 at the subSets tree. -/
theorem C2_linking_postcondition_witness :
    subSets.mapM bsidOf = some ["bs1", "bs2"] ∧
    (["bs1", "bs2"] : List String).Nodup ∧
    Fresh subSets ∧
    mkLogicTree subSets = some (subLinked, subT) ∧
    (∀ i, (getSet subLinked i).branches =
      (getSet subSets i).branches.map fun b =>
        { b with childset :=
            if i + 1 < subSets.length ∧
                selected (getATB (getSet subSets (i + 1)).attrs) b.brid = true
            then some (i + 1) else none }) := by
  have hks : subSets.mapM bsidOf = some ["bs1", "bs2"] := by decide
  have hnd : (["bs1", "bs2"] : List String).Nodup := by decide
  have hfr : Fresh subSets := by
    show ∀ bs ∈ subSets, ∀ b ∈ bs.branches, b.childset = none
    decide
  have hmk : mkLogicTree subSets = some (subLinked, subT) := rfl
  exact ⟨hks, hnd, hfr, hmk,
    C2_linking_postcondition subSets subLinked subT ["bs1", "bs2"] hks hnd hfr hmk⟩

theorem buildDict_isSome_iff (sets : List BranchSet) :
    ∀ (idxs : List Nat) (d : List (String × Nat)),
      (idxs.foldlM (fun d idx => do
        let k ← alookup "bsid" (getSet sets idx).attrs
        some (dictInsert k idx d)) d).isSome = true ↔
      ∀ idx ∈ idxs, (bsidOf (getSet sets idx)).isSome = true
  | [], d => by simp [List.foldlM]
  | idx :: idxs, d => by
    cases hb : alookup "bsid" (getSet sets idx).attrs with
    | none =>
      have hnone : (idx :: idxs).foldlM (fun d idx => do
          let k ← alookup "bsid" (getSet sets idx).attrs
          some (dictInsert k idx d)) d = none := by
        rw [List.foldlM_cons]
        simp [hb]
      rw [hnone]
      simp only [Option.isSome_none, Bool.false_eq_true, false_iff]
      intro hall
      exact absurd (hall idx (by simp)) (by simp [bsidOf, hb])
    | some k =>
      have hstep : (idx :: idxs).foldlM (fun d idx => do
          let k ← alookup "bsid" (getSet sets idx).attrs
          some (dictInsert k idx d)) d =
          idxs.foldlM (fun d idx => do
            let k ← alookup "bsid" (getSet sets idx).attrs
            some (dictInsert k idx d)) (dictInsert k idx d) := by
        rw [List.foldlM_cons]
        simp [hb]
      rw [hstep, buildDict_isSome_iff sets idxs (dictInsert k idx d)]
      constructor
      · intro h i hi
        rcases List.mem_cons.1 hi with he | he
        · subst he; simp [bsidOf, hb]
        · exact h i he
      · intro h i hi
        exact h i (by simp [hi])

/-- Claim C8 as stated is false on the source: on a tree whose second
branch-set names an id absent from the first branch-set, construction
completes without error and simply leaves every branch of the first set
unlinked. -/
theorem C8_counterexample :
    (mkLogicTree orphanSets).isSome = true ∧
    (mkLogicTree orphanSets).map
      (fun p : List BranchSet × LogicTree =>
        (getSet p.1 0).branches.map (·.childset)) = some [none] := by
  exact ⟨by decide, by decide⟩

/-- Claim C8 (amended): construction never validates `applyToBranches`; it
fails exactly when some branch-set lacks the `bsid` attribute.  Ids that
select no parent branch are silently ignored, leaving those branches
unlinked (their paths simply end earlier). -/
theorem C8_no_orphan_validation (sets : List BranchSet) :
    (mkLogicTree sets).isSome = true ↔ ∀ bs ∈ sets, (bsidOf bs).isSome = true := by
  have hbd : (mkLogicTree sets).isSome = (buildDict sets (List.range sets.length)).isSome := by
    unfold mkLogicTree LogicTree.init
    cases hd : buildDict sets (List.range sets.length) <;> simp [hd]
  rw [hbd]
  have hiff := buildDict_isSome_iff sets (List.range sets.length) []
  rw [show (buildDict sets (List.range sets.length)).isSome =
      ((List.range sets.length).foldlM (fun d idx => do
        let k ← alookup "bsid" (getSet sets idx).attrs
        some (dictInsert k idx d)) []).isSome from rfl, hiff]
  constructor
  · intro h bs hbs
    obtain ⟨i, hilen, hib⟩ := List.getElem_of_mem hbs
    have := h i (by simpa using hilen)
    rwa [getSet_eq_getElem sets i hilen, hib] at this
  · intro h i hi
    have hilen : i < sets.length := by simpa using hi
    rw [getSet_eq_getElem sets i hilen]
    exact h sets[i] (List.getElem_mem hilen)

/-! ### The recursive counting helper -/

theorem count_rlzs_leaf (sets : List BranchSet) (fuel : Nat) (b : Branch)
    (h : b.childset = none) : count_rlzs sets fuel b = some 1 := by
  rw [count_rlzs.eq_def, h]

theorem count_rlzs_over_eq_mapM (sets : List BranchSet) (fuel : Nat) :
    ∀ l : List Branch, count_rlzs_over sets fuel l = l.mapM (count_rlzs sets fuel)
  | [] => by rw [count_rlzs_over.eq_def]; rfl
  | b :: l => by
    rw [count_rlzs_over.eq_def]
    show (do
      let n ← count_rlzs sets fuel b
      let ns ← count_rlzs_over sets fuel l
      some (n :: ns)) = _
    rw [count_rlzs_over_eq_mapM sets fuel l, mapM_option_cons]
    rfl

theorem count_rlzs_node (sets : List BranchSet) (fuel : Nat) (b : Branch) (j : Nat)
    (h : b.childset = some j) :
    count_rlzs sets (fuel + 1) b =
      ((getSet sets j).branches.mapM (count_rlzs sets fuel)).map List.sum := by
  rw [count_rlzs.eq_def, h]
  show (count_rlzs_over sets fuel (getSet sets j).branches).map List.sum = _
  rw [count_rlzs_over_eq_mapM]

/-- Claim C7: count_rlzs returns 1 on a branch with a null child_branchset
and otherwise the sum of count_rlzs over all branches of the child
branch-set (given recursion fuel, which Python's call stack provides); in
particular a branch excluded by a later branch-set's applyToBranches, which
construction leaves with a null child_branchset, counts 1 regardless of how
many branch-sets follow and of the fuel. -/
theorem C7_count_rlzs :
    (∀ (sets : List BranchSet) (fuel : Nat) (b : Branch), b.childset = none →
      count_rlzs sets fuel b = some 1) ∧
    (∀ (sets : List BranchSet) (fuel : Nat) (b : Branch) (j : Nat), b.childset = some j →
      count_rlzs sets (fuel + 1) b =
        ((getSet sets j).branches.mapM (count_rlzs sets fuel)).map List.sum) ∧
    (∀ (sets sets2 : List BranchSet) (t : LogicTree) (ks : List String),
      sets.mapM bsidOf = some ks → ks.Nodup → Fresh sets →
      mkLogicTree sets = some (sets2, t) →
      ∀ i, ∀ b ∈ (getSet sets2 i).branches,
        selected (getATB (getSet sets (i + 1)).attrs) b.brid = false →
        ∀ fuel, count_rlzs sets2 fuel b = some 1) := by
  refine ⟨count_rlzs_leaf, count_rlzs_node, ?_⟩
  intro sets sets2 t ks hks hnd hfr hmk i b hb hsel fuel
  rw [mk_childset sets sets2 t ks hks hnd hfr hmk i] at hb
  obtain ⟨b0, hb0, rfl⟩ := List.mem_map.1 hb
  apply count_rlzs_leaf
  show (if i + 1 < sets.length ∧
      selected (getATB (getSet sets (i + 1)).attrs) b0.brid = true
    then some (i + 1) else (none : Option Nat)) = none
  rw [if_neg (fun hcon => by
    have hb0sel : selected (getATB (getSet sets (i + 1)).attrs) b0.brid = false := hsel
    rw [hb0sel] at hcon
    exact absurd hcon.2 (by simp))]

/-- Witness for claim C7 at the filtered three-branch-set tree: the
excluded branch a1 counts 1 with any fuel although a third branch-set
follows. -/
theorem C7_count_rlzs_witness :
    noBranch.childset = none ∧
    count_rlzs filtLinked 0 noBranch = some 1 ∧
    (⟨"bs1", "b1", "A", 1, some 1⟩ : Branch).childset = some 1 ∧
    count_rlzs filtLinked 1 ⟨"bs1", "b1", "A", 1, some 1⟩ =
      ((getSet filtLinked 1).branches.mapM (count_rlzs filtLinked 0)).map List.sum ∧
    filtSets.mapM bsidOf = some ["bs1", "bs2", "bs3"] ∧
    (["bs1", "bs2", "bs3"] : List String).Nodup ∧
    Fresh filtSets ∧
    mkLogicTree filtSets = some (filtLinked, filtT) ∧
    (⟨"bs2", "a1", "B", 1/2, none⟩ : Branch) ∈ (getSet filtLinked 1).branches ∧
    selected (getATB (getSet filtSets 2).attrs) "a1" = false ∧
    (∀ fuel, count_rlzs filtLinked fuel ⟨"bs2", "a1", "B", 1/2, none⟩ = some 1) := by
  have hks : filtSets.mapM bsidOf = some ["bs1", "bs2", "bs3"] := by decide
  have hnd : (["bs1", "bs2", "bs3"] : List String).Nodup := by decide
  have hfr : Fresh filtSets := by
    show ∀ bs ∈ filtSets, ∀ b ∈ bs.branches, b.childset = none
    decide
  have hmk : mkLogicTree filtSets = some (filtLinked, filtT) := rfl
  have hmem : (⟨"bs2", "a1", "B", 1/2, none⟩ : Branch) ∈ (getSet filtLinked 1).branches := by
    show _ ∈ [(⟨"bs2", "a1", "B", 1/2, none⟩ : Branch), ⟨"bs2", "a2", "C", 1/2, some 2⟩]
    exact List.mem_cons_self ..
  have hsel : selected (getATB (getSet filtSets 2).attrs) "a1" = false := by decide
  exact ⟨rfl, C7_count_rlzs.1 filtLinked 0 noBranch rfl, rfl,
    C7_count_rlzs.2.1 filtLinked 0 _ 1 rfl, hks, hnd, hfr, hmk, hmem, hsel,
    fun fuel => C7_count_rlzs.2.2 filtSets filtLinked filtT ["bs1", "bs2", "bs3"]
      hks hnd hfr hmk 1 _ hmem hsel fuel⟩

/-! ### Mutation by reduce -/

theorem list_set_self (l : List α) (p : Nat) (a : α) (h : p < l.length)
    (ha : a = l[p]) : l.set p a = l := by
  subst ha
  apply List.ext_getElem (by simp)
  intro i h1 h2
  by_cases hip : p = i
  · subst hip
    simp
  · rw [List.getElem_set_ne hip]

theorem stripSet_linkPass (sets : List BranchSet) (p c : Nat) :
    (linkPass sets p c).map stripSet = sets.map stripSet := by
  apply List.ext_getElem
  · simp [linkPass_length]
  · intro i h1 h2
    simp only [List.getElem_map]
    have hlen : i < sets.length := by simpa using h2
    have h3 : i < (linkPass sets p c).length := by
      simpa [linkPass_length] using hlen
    have h4 : (linkPass sets p c)[i] = getSet (linkPass sets p c) i :=
      (getSet_eq_getElem _ _ h3).symm
    by_cases hip : p = i
    · subst hip
      rw [h4, getSet_linkPass_self sets p c hlen, getSet_eq_getElem sets p hlen]
      show ((sets[p].branches.map fun b =>
          if selected (getATB (getSet sets c).attrs) b.brid = true
          then { b with childset := some c } else b).map toRec, sets[p].attrs) =
        (sets[p].branches.map toRec, sets[p].attrs)
      rw [List.map_map]
      refine congrArg (fun x => (x, sets[p].attrs)) ?_
      apply List.map_congr_left
      intro b _
      show toRec (if selected (getATB (getSet sets c).attrs) b.brid = true
        then { b with childset := some c } else b) = toRec b
      by_cases hs : selected (getATB (getSet sets c).attrs) b.brid = true
      · rw [if_pos hs]; rfl
      · rw [if_neg hs]
    · rw [h4, getSet_linkPass_ne sets p c i hip, getSet_eq_getElem sets i hlen]

theorem stripSet_linkLoop (pairs : List (Nat × Nat)) :
    ∀ (sets : List BranchSet), (linkLoop sets pairs).map stripSet = sets.map stripSet := by
  induction pairs with
  | nil => intro sets; rfl
  | cons pc rest ih =>
    intro sets
    show (linkLoop (linkPass sets pc.1 pc.2) rest).map stripSet = _
    rw [ih, stripSet_linkPass]

/-- Claim C9 as stated is false on the source: reduce re-runs the
constructor on the shared branch-set objects, and reducing the example tree
to `["bs2", "bs1"]` re-points the second branch-set's branches (previously
leaves) at the first branch-set, changing the original tree's state. -/
theorem C9_counterexample :
    mkLogicTree exSets = some (exLinked, exT) ∧
    (LogicTree.reduce exLinked exT ["bs2", "bs1"]).map
      (fun p : List BranchSet × LogicTree =>
        (getSet p.1 1).branches.map (·.childset)) = some [some 0, some 0] ∧
    (getSet exLinked 1).branches.map (·.childset) = [none, none] := by
  exact ⟨rfl, by decide, by decide⟩

/-- Claim C9 (amended): gen_rlzs, sample, rootbranches and toh5 are pure
functions of the state, but reduce re-runs the linking loop on the shared
branch-sets and may change child_branchset references; it never changes
anything else: the arena after reduce carries the same branch records and
the same attributes, branch-set by branch-set. -/
theorem C9_reduce_frame (sets : List BranchSet) (t : LogicTree) (bsids : List String)
    (sets2 : List BranchSet) (t2 : LogicTree)
    (h : LogicTree.reduce sets t bsids = some (sets2, t2)) :
    sets2.map stripSet = sets.map stripSet := by
  unfold LogicTree.reduce at h
  cases hidx : bsids.mapM (fun k => alookup k t.branchset) with
  | none => rw [hidx] at h; exact absurd h (by simp)
  | some idxs =>
    rw [hidx] at h
    simp only [Option.bind_eq_bind, Option.some_bind] at h
    unfold LogicTree.init at h
    cases hd : buildDict sets idxs with
    | none => rw [hd] at h; exact absurd h (by simp)
    | some d =>
      rw [hd] at h
      simp only [Option.bind_eq_bind, Option.some_bind, Option.some.injEq] at h
      have hsets2 : sets2 = linkLoop sets (idxs.zip idxs.tail) := by
        have := congrArg Prod.fst h.symm
        simpa using this
      rw [hsets2]
      exact stripSet_linkLoop _ sets

/-- Witness for the amended claim C9 at the reduced example tree. -/
theorem C9_reduce_frame_witness :
    LogicTree.reduce exLinked exT ["bs2", "bs1"] = some (exReduced, exReducedT) ∧
    exReduced.map stripSet = exLinked.map stripSet := by
  have h : LogicTree.reduce exLinked exT ["bs2", "bs1"] = some (exReduced, exReducedT) := rfl
  exact ⟨h, C9_reduce_frame exLinked exT ["bs2", "bs1"] exReduced exReducedT h⟩

/-! ### Sampling -/

theorem sample_objs_isSome (objs : List Branch) (n seed : Nat)
    (hsum : (objs.map fun b => b.weight).sum = 1) :
    (LT.sample objs n seed).isSome = true := by
  show ((npChoice (objs.map fun b => b.weight).length n (objs.map fun b => b.weight) seed).bind
    fun idxs => some (idxs.map fun idx => objs.getD idx noBranch)).isSome = true
  rw [npChoice, if_pos hsum]
  rfl

theorem sample_objs_none (objs : List Branch) (n seed : Nat)
    (hsum : (objs.map fun b => b.weight).sum ≠ 1) :
    LT.sample objs n seed = none := by
  show ((npChoice (objs.map fun b => b.weight).length n (objs.map fun b => b.weight) seed).bind
    fun idxs => some (idxs.map fun idx => objs.getD idx noBranch)) = none
  rw [npChoice, if_neg hsum]
  rfl

/-- `LogicTree.sample` in closed form, once every per-branch-set draw has
succeeded. -/
theorem tree_sample_eq (sets : List BranchSet) (t : LogicTree) (n seed : Nat)
    (brlists : List (List Branch))
    (hb : t.branchset.enum.mapM
      (fun ikv => LT.sample (getSet sets ikv.2.2).branches n (seed + ikv.1)) = some brlists)
    (hn : n ≠ 0) :
    LogicTree.sample sets t n seed = some ((List.range n).map fun i =>
      ⟨brlists.map fun brlist => (brlist.getD i noBranch).uncertainty, 1 / (n : ℚ),
        brlists.map fun brlist => (brlist.getD i noBranch).brid, i⟩) := by
  show (t.branchset.enum.mapM
      (fun ikv => LT.sample (getSet sets ikv.2.2).branches n (seed + ikv.1))).bind
    (fun brlists => if n = 0 then none else some ((List.range n).map fun i =>
      let chosen := brlists.map fun brlist => brlist.getD i noBranch
      (⟨chosen.map (·.uncertainty), 1 / (n : ℚ), chosen.map (·.brid), i⟩ : Realization))) = _
  rw [hb]
  show (if n = 0 then none else some _) = _
  rw [if_neg hn]
  refine congrArg some (List.map_congr_left ?_)
  intro i _
  show (⟨(brlists.map fun brlist => brlist.getD i noBranch).map (·.uncertainty), 1 / (n : ℚ),
    (brlists.map fun brlist => brlist.getD i noBranch).map (·.brid), i⟩ : Realization) = _
  rw [List.map_map, List.map_map]
  rfl

/-- Claim C6: with n > 0 and valid weights, sampling yields exactly n
realizations; the i-th has weight 1/n, ordinal i, and lt_path and value
assembled in branch-set insertion order from the i-th draw of each
branch-set's sampled list, each branch-set drawn with seed + its position. -/
theorem C6_sample_shape (sets : List BranchSet) (t : LogicTree) (n seed : Nat)
    (hn : 0 < n)
    (hw : ∀ kv ∈ t.branchset, ((getSet sets kv.2).branches.map fun b => b.weight).sum = 1) :
    ∃ brlists rlzs,
      t.branchset.enum.mapM
        (fun ikv => LT.sample (getSet sets ikv.2.2).branches n (seed + ikv.1)) =
          some brlists ∧
      LogicTree.sample sets t n seed = some rlzs ∧
      rlzs.length = n ∧
      (∀ i, i < n → rlzs.getD i noRlz =
        ⟨brlists.map fun brlist => (brlist.getD i noBranch).uncertainty, 1 / (n : ℚ),
          brlists.map fun brlist => (brlist.getD i noBranch).brid, i⟩) := by
  have hsome : (t.branchset.enum.mapM
      (fun ikv => LT.sample (getSet sets ikv.2.2).branches n (seed + ikv.1))).isSome = true := by
    apply mapM_option_isSome
    intro ikv hik
    have hkv : ikv.2 ∈ t.branchset := by
      rw [List.enum_eq_zip_range] at hik
      exact (List.of_mem_zip hik).2
    exact sample_objs_isSome _ n _ (hw ikv.2 hkv)
  obtain ⟨brlists, hb⟩ := Option.isSome_iff_exists.1 hsome
  have hs := tree_sample_eq sets t n seed brlists hb (Nat.pos_iff_ne_zero.1 hn)
  refine ⟨brlists, _, hb, hs, by simp, ?_⟩
  intro i hi
  rw [List.getD_eq_getElem _ _ (by simpa using hi)]
  rw [List.getElem_map, List.getElem_range]

/-- Claim C10: sampling fails, and yields no realizations at all, exactly
when some branch-set's weights do not sum to 1; with all weights valid the
call succeeds. -/
theorem C10_sampling_validation (sets : List BranchSet) (t : LogicTree) (n seed : Nat)
    (hn : 0 < n) :
    ((∃ kv ∈ t.branchset, ((getSet sets kv.2).branches.map fun b => b.weight).sum ≠ 1) →
      LogicTree.sample sets t n seed = none) ∧
    ((∀ kv ∈ t.branchset, ((getSet sets kv.2).branches.map fun b => b.weight).sum = 1) →
      (LogicTree.sample sets t n seed).isSome = true) := by
  constructor
  · rintro ⟨kv, hkv, hsum⟩
    obtain ⟨j, hj, hjv⟩ := List.getElem_of_mem hkv
    have hmem : (j, kv) ∈ t.branchset.enum := by
      rw [List.enum_eq_zip_range]
      have hjz : j < ((List.range t.branchset.length).zip t.branchset).length := by
        simp [hj]
      have hz : ((List.range t.branchset.length).zip t.branchset)[j] = (j, kv) := by
        rw [List.getElem_zip]
        rw [List.getElem_range]
        rw [hjv]
      rw [← hz]
      exact List.getElem_mem hjz
    have hfail : t.branchset.enum.mapM
        (fun ikv => LT.sample (getSet sets ikv.2.2).branches n (seed + ikv.1)) = none :=
      mapM_option_none _ _ (j, kv) hmem (sample_objs_none _ n _ hsum)
    show (t.branchset.enum.mapM
        (fun ikv => LT.sample (getSet sets ikv.2.2).branches n (seed + ikv.1))).bind _ = none
    rw [hfail]
    rfl
  · intro hw
    have hsome : (t.branchset.enum.mapM
        (fun ikv => LT.sample (getSet sets ikv.2.2).branches n (seed + ikv.1))).isSome = true := by
      apply mapM_option_isSome
      intro ikv hik
      have hkv : ikv.2 ∈ t.branchset := by
        rw [List.enum_eq_zip_range] at hik
        exact (List.of_mem_zip hik).2
      exact sample_objs_isSome _ n _ (hw ikv.2 hkv)
    obtain ⟨brlists, hb⟩ := Option.isSome_iff_exists.1 hsome
    rw [tree_sample_eq sets t n seed brlists hb (Nat.pos_iff_ne_zero.1 hn)]
    rfl

/-- Witness for claim C6 at the example tree, n = 2, seed = 0. -/
theorem C6_sample_shape_witness :
    0 < 2 ∧
    (∀ kv ∈ exT.branchset, ((getSet exLinked kv.2).branches.map fun b => b.weight).sum = 1) ∧
    (∃ brlists rlzs,
      exT.branchset.enum.mapM
        (fun ikv => LT.sample (getSet exLinked ikv.2.2).branches 2 (0 + ikv.1)) =
          some brlists ∧
      LogicTree.sample exLinked exT 2 0 = some rlzs ∧
      rlzs.length = 2 ∧
      (∀ i, i < 2 → rlzs.getD i noRlz =
        ⟨brlists.map fun brlist => (brlist.getD i noBranch).uncertainty, 1 / ((2 : Nat) : ℚ),
          brlists.map fun brlist => (brlist.getD i noBranch).brid, i⟩)) := by
  have hn : 0 < 2 := by decide
  have hw : ∀ kv ∈ exT.branchset,
      ((getSet exLinked kv.2).branches.map fun b => b.weight).sum = 1 := by
    intro kv hkv
    have hor : kv = ("bs1", 0) ∨ kv = ("bs2", 1) := by simpa [exT] using hkv
    rcases hor with rfl | rfl <;> norm_num [getSet, exLinked]
  exact ⟨hn, hw, C6_sample_shape exLinked exT 2 0 hn hw⟩

/-- Witness for claim C10: sampling the bad-weights tree fails, sampling
the example tree succeeds. -/
theorem C10_sampling_validation_witness :
    0 < 2 ∧
    (∃ kv ∈ badT.branchset, ((getSet badSets kv.2).branches.map fun b => b.weight).sum ≠ 1) ∧
    LogicTree.sample badSets badT 2 0 = none ∧
    (∀ kv ∈ exT.branchset, ((getSet exLinked kv.2).branches.map fun b => b.weight).sum = 1) ∧
    (LogicTree.sample exLinked exT 2 0).isSome = true := by
  have hn : (0 : Nat) < 2 := by decide
  have hbad : ∃ kv ∈ badT.branchset,
      ((getSet badSets kv.2).branches.map fun b => b.weight).sum ≠ 1 := by
    refine ⟨("bs1", 0), by simp [badT], ?_⟩
    norm_num [getSet, badSets]
  have hw : ∀ kv ∈ exT.branchset,
      ((getSet exLinked kv.2).branches.map fun b => b.weight).sum = 1 := by
    intro kv hkv
    have hor : kv = ("bs1", 0) ∨ kv = ("bs2", 1) := by simpa [exT] using hkv
    rcases hor with rfl | rfl <;> norm_num [getSet, exLinked]
  exact ⟨hn, hbad, (C10_sampling_validation badSets badT 2 0 hn).1 hbad, hw,
    (C10_sampling_validation exLinked exT 2 0 hn).2 hw⟩

/-! ### The codec -/

/-- Claim C1 as stated is false on the source: decoding the encoded example
tree loses the bsid attribute (popped by the encoder, never restored) and
loses every child_branchset link (the decoder does not re-run the linking
loop), so the decoded tree is not structurally equal to the original. -/
theorem C1_counterexample :
    mkLogicTree exSets = some (exLinked, exT) ∧
    ((LogicTree.toh5 exLinked exT).bind fromh5).map
      (fun p : List BranchSet × LogicTree => (getSet p.1 0).attrs) = some [] ∧
    (getSet exLinked 0).attrs = [("bsid", "bs1")] ∧
    ((LogicTree.toh5 exLinked exT).bind fromh5).map
      (fun p : List BranchSet × LogicTree => (getSet p.1 0).branches.map (·.childset)) =
      some [none, none] ∧
    (getSet exLinked 0).branches.map (·.childset) = [some 1, some 1] := by
  exact ⟨rfl, by decide, by decide, by decide, by decide⟩

theorem mapM_option_getElem (f : α → Option β) :
    ∀ (l : List α) (l2 : List β), List.mapM f l = some l2 →
      ∀ j (h : j < l.length) (h2 : j < l2.length), f l[j] = some l2[j]
  | [], l2, hm, j, h, h2 => by simp at h
  | a :: l, l2, hm, j, h, h2 => by
    rw [mapM_option_cons] at hm
    cases hfa : f a with
    | none => rw [hfa] at hm; simp at hm
    | some b =>
      rw [hfa] at hm
      cases hl : List.mapM f l with
      | none => rw [hl] at hm; simp at hm
      | some bs =>
        rw [hl] at hm
        cases (by simpa using hm : b :: bs = l2)
        cases j with
        | zero => simpa using hfa
        | succ j =>
          simpa using mapM_option_getElem f l bs hl j (by simpa using h) (by simpa using h2)

theorem filter_idem (p : α → Bool) (l : List α) :
    (l.filter p).filter p = l.filter p := by
  rw [List.filter_filter]
  simp

theorem firstKeys_all_key (k : String) :
    ∀ (rows rest : List BranchRec), rows ≠ [] → (∀ r ∈ rows, r.bsid = k) →
      firstKeys (rows ++ rest) =
        k :: (firstKeys rest).filter fun k2 => decide (k2 ≠ k)
  | [], _, hne, _ => absurd rfl hne
  | [r], rest, _, hall => by
    rw [List.singleton_append, firstKeys, hall r (by simp)]
  | r :: r2 :: rows, rest, _, hall => by
    rw [List.cons_append, firstKeys, hall r (by simp),
      firstKeys_all_key k (r2 :: rows) rest (by simp) (fun x hx => hall x (by simp [hx]))]
    congr 1
    rw [List.filter_cons, if_neg (by simp)]
    exact filter_idem _ _

theorem group_array_fst (rows : List BranchRec) :
    (group_array rows).map Prod.fst = firstKeys rows := by
  unfold group_array
  rw [List.map_map]
  have hc : (Prod.fst ∘ fun k => (k, rows.filter fun r => decide (r.bsid = k))) =
      fun k : String => k := rfl
  rw [hc]
  simp

/-- Grouping the concatenation of nonempty per-key blocks with pairwise
distinct keys recovers exactly those blocks in order. -/
theorem group_array_concat :
    ∀ (groups : List (String × List BranchRec)),
      (∀ g ∈ groups, g.2 ≠ [] ∧ ∀ r ∈ g.2, r.bsid = g.1) →
      (groups.map Prod.fst).Nodup →
      group_array ((groups.map Prod.snd).flatten) = groups
  | [], _, _ => rfl
  | (k, rows) :: rest, hall, hnd => by
    have hne : rows ≠ [] := (hall (k, rows) (by simp)).1
    have hrows : ∀ r ∈ rows, r.bsid = k := fun r hr => (hall (k, rows) (by simp)).2 r hr
    have hnd0 := List.nodup_cons.1 (by simpa using hnd :
      (k :: rest.map Prod.fst).Nodup)
    have hknot : k ∉ rest.map Prod.fst := hnd0.1
    have ih := group_array_concat rest (fun g hg => hall g (by simp [hg])) hnd0.2
    have hflat : (((k, rows) :: rest).map Prod.snd).flatten =
        rows ++ ((rest.map Prod.snd).flatten) := rfl
    have hrestmem : ∀ r ∈ (rest.map Prod.snd).flatten, r.bsid ∈ rest.map Prod.fst := by
      intro r hr
      obtain ⟨s, hs, hrs⟩ := List.mem_flatten.1 hr
      obtain ⟨g, hg, rfl⟩ := List.mem_map.1 hs
      rw [(hall g (by simp [hg])).2 r hrs]
      exact List.mem_map.2 ⟨g, hg, rfl⟩
    have hfkrest : firstKeys ((rest.map Prod.snd).flatten) = rest.map Prod.fst := by
      rw [← group_array_fst, ih]
    have hfirst : firstKeys (((k, rows) :: rest).map Prod.snd).flatten =
        k :: rest.map Prod.fst := by
      rw [hflat, firstKeys_all_key k rows _ hne hrows, hfkrest,
        List.filter_eq_self.2 (fun a ha => by
          simp only [decide_eq_true_eq]
          intro he
          exact hknot (he ▸ ha))]
    show (firstKeys (((k, rows) :: rest).map Prod.snd).flatten).map
        (fun k2 => (k2, ((((k, rows) :: rest).map Prod.snd).flatten).filter
          fun r => decide (r.bsid = k2))) = (k, rows) :: rest
    rw [hfirst, List.map_cons]
    have hhead : ((((k, rows) :: rest).map Prod.snd).flatten).filter
        (fun r => decide (r.bsid = k)) = rows := by
      rw [hflat, List.filter_append,
        List.filter_eq_self.2 (fun r hr => by simpa using hrows r hr),
        List.filter_eq_nil_iff.2 (fun r hr => by
          simp only [decide_eq_true_eq]
          intro he
          exact hknot (he ▸ hrestmem r hr)),
        List.append_nil]
    rw [hhead]
    have htail : (rest.map Prod.fst).map
        (fun k2 => (k2, ((((k, rows) :: rest).map Prod.snd).flatten).filter
          fun r => decide (r.bsid = k2))) = rest := by
      have hcongr : ∀ k2 ∈ rest.map Prod.fst,
          (k2, ((((k, rows) :: rest).map Prod.snd).flatten).filter
            fun r => decide (r.bsid = k2)) =
          (k2, ((rest.map Prod.snd).flatten).filter fun r => decide (r.bsid = k2)) := by
        intro k2 hk2
        have hkne : k2 ≠ k := fun he => hknot (he ▸ hk2)
        rw [hflat, List.filter_append,
          List.filter_eq_nil_iff.2 (fun r hr => by
            simp only [decide_eq_true_eq]
            intro he
            exact hkne (he.symm.trans (hrows r hr))),
          List.nil_append]
      rw [List.map_congr_left hcongr, ← hfkrest]
      show group_array ((rest.map Prod.snd).flatten) = rest
      exact ih
    rw [htail]

/-- Encoding a constructed tree: the records are the branch records in
branch-set then branch order (linking does not show in the records), the
blob pairs each bsid with the attrs minus the popped bsid key. -/
theorem toh5_mk (sets sets2 : List BranchSet) (t : LogicTree) (ks : List String)
    (hks : sets.mapM bsidOf = some ks) (hnd : ks.Nodup)
    (hmk : mkLogicTree sets = some (sets2, t)) :
    LogicTree.toh5 sets2 t =
      some ⟨(sets.map fun bs => bs.branches.map toRec).flatten,
        ks.zip (sets.map fun bs => aremove "bsid" bs.attrs)⟩ := by
  have hG := mk_groups_toRec sets sets2 t ks hks hnd hmk
  obtain ⟨s2, h1, h2, h3⟩ := mk_char sets ks hks hnd
  rw [hmk] at h1
  injection h1 with h1
  injection h1 with he1 he2
  subst he1
  subst he2
  have hkslen : ks.length = sets.length := mapM_option_length bsidOf sets ks hks
  have hattr : ∀ i, (getSet sets2 i).attrs = (getSet sets i).attrs := by
    intro i
    rw [h3 i]
    by_cases hc : i + 1 < sets.length
    · rw [if_pos hc]
    · rw [if_neg hc]
  have hbsid := mapM_option_getElem bsidOf sets ks hks
  have hmem_shape : ∀ kv ∈ ks.zip (List.range sets.length),
      ∃ j, ∃ hj : j < sets.length, ∃ hjk : j < ks.length, kv = (ks[j], j) := by
    intro kv hkv
    obtain ⟨j, hj, hjv⟩ := List.getElem_of_mem hkv
    have hjlen : j < sets.length := by
      have := hj
      simp only [List.length_zip, List.length_range] at this
      omega
    have hjk : j < ks.length := by omega
    refine ⟨j, hjlen, hjk, ?_⟩
    rw [← hjv, List.getElem_zip, List.getElem_range]
  have hmapM : (ks.zip (List.range sets.length)).mapM
      (fun kv => alookup "bsid" (getSet sets2 kv.2).attrs) = some ks := by
    have hcg := mapM_option_congr
      (fun kv : String × Nat => alookup "bsid" (getSet sets2 kv.2).attrs) Prod.fst
      (ks.zip (List.range sets.length)) (by
        intro kv hkv
        obtain ⟨j, hj, hjk, rfl⟩ := hmem_shape kv hkv
        show alookup "bsid" (getSet sets2 j).attrs = _
        rw [hattr j]
        show bsidOf (getSet sets j) = _
        rw [getSet_eq_getElem sets j hj]
        exact hbsid j hj hjk)
    rw [hcg, List.map_fst_zip _ _ (by simp [hkslen])]
  have hbd : (ks.zip (List.range sets.length)).foldlM
      (fun acc kv => do
        let attrs := (getSet sets2 kv.2).attrs
        let k ← alookup "bsid" attrs
        some (dictInsert k (aremove "bsid" attrs) acc)) [] =
      some (ks.zip ((ks.zip (List.range sets.length)).map
        fun kv => aremove "bsid" (getSet sets2 kv.2).attrs)) := by
    have := foldlM_dictInsert_eq
      (fun kv : String × Nat => alookup "bsid" (getSet sets2 kv.2).attrs)
      (fun kv : String × Nat => aremove "bsid" (getSet sets2 kv.2).attrs)
      (ks.zip (List.range sets.length)) ks [] hmapM (by simpa using hnd)
    simpa using this
  have hgmap : ((ks.zip (List.range sets.length)).map
      fun kv => aremove "bsid" (getSet sets2 kv.2).attrs) =
      sets.map fun bs => aremove "bsid" bs.attrs := by
    rw [show (fun kv : String × Nat => aremove "bsid" (getSet sets2 kv.2).attrs) =
      (fun i => aremove "bsid" (getSet sets2 i).attrs) ∘ Prod.snd from rfl]
    rw [← List.map_map, List.map_snd_zip _ _ (by simp [hkslen])]
    have hcg : ∀ i ∈ List.range sets.length,
        aremove "bsid" (getSet sets2 i).attrs = aremove "bsid" (getSet sets i).attrs := by
      intro i _
      rw [hattr i]
    rw [List.map_congr_left hcg]
    rw [show (fun i => aremove "bsid" (getSet sets i).attrs) =
      (fun bs : BranchSet => aremove "bsid" bs.attrs) ∘ getSet sets from rfl]
    rw [← List.map_map, map_range_getSet]
  have hrec : (ks.zip (List.range sets.length)).flatMap
      (fun kv => (getSet sets2 kv.2).branches.map toRec) =
      (sets.map fun bs => bs.branches.map toRec).flatten := by
    rw [List.flatMap_def]
    rw [show (fun kv : String × Nat => (getSet sets2 kv.2).branches.map toRec) =
      List.map toRec ∘ (fun kv : String × Nat => (getSet sets2 kv.2).branches) from rfl]
    rw [← List.map_map]
    have hgroups : (ks.zip (List.range sets.length)).map
        (fun kv : String × Nat => (getSet sets2 kv.2).branches) =
        LogicTree.groups sets2 ⟨ks.zip (List.range sets.length)⟩ := rfl
    rw [hgroups, hG]
  show ((ks.zip (List.range sets.length)).foldlM
      (fun (acc : List (String × List (String × String))) (kv : String × Nat) => do
        let attrs := (getSet sets2 kv.2).attrs
        let k ← alookup "bsid" attrs
        some (dictInsert k (aremove "bsid" attrs) acc)) []).bind
    (fun bsetdict => some (⟨(ks.zip (List.range sets.length)).flatMap
      fun kv : String × Nat => (getSet sets2 kv.2).branches.map toRec,
      bsetdict⟩ : H5Dic)) = _
  rw [hbd]
  show some (⟨(ks.zip (List.range sets.length)).flatMap
      fun kv => (getSet sets2 kv.2).branches.map toRec, _⟩ : H5Dic) = _
  rw [hrec, hgmap]

theorem enumFrom_map_key :
    ∀ (l : List (α × β)) (off : Nat),
      (List.enumFrom off l).map (fun p => (p.2.1, p.1)) =
        (l.map Prod.fst).zip (List.range' off l.length)
  | [], off => rfl
  | x :: l, off => by
    rw [List.enumFrom_cons, List.map_cons, enumFrom_map_key l (off + 1), List.map_cons,
      List.length_cons, List.range'_succ, List.zip_cons_cons]

theorem enum_map_key (l : List (α × β)) :
    l.enum.map (fun p => (p.2.1, p.1)) = (l.map Prod.fst).zip (List.range l.length) := by
  rw [show l.enum = List.enumFrom 0 l from rfl, enumFrom_map_key l 0, List.range_eq_range']

/-- Claim C1 (amended): the round trip through the codec preserves the
branch-set order, the branches of every branch-set in order with their four
record fields, and the dict; it does not preserve the attrs (the bsid key,
popped by the encoder, is gone after decoding) and it does not reconstruct
any child_branchset link (the decoder never re-runs the linking loop, so
every decoded branch has childset = none, like the fresh input and unlike
the constructed arena). -/
theorem C1_roundtrip (sets sets2 : List BranchSet) (t : LogicTree) (ks : List String)
    (hks : sets.mapM bsidOf = some ks) (hnd : ks.Nodup) (hfr : Fresh sets)
    (hbr : ∀ p ∈ sets.zip ks, ∀ b ∈ p.1.branches, b.bsid = p.2)
    (hne : ∀ bs ∈ sets, bs.branches ≠ [])
    (hmk : mkLogicTree sets = some (sets2, t)) :
    LogicTree.toh5 sets2 t =
      some ⟨(sets.map fun bs => bs.branches.map toRec).flatten,
        ks.zip (sets.map fun bs => aremove "bsid" bs.attrs)⟩ ∧
    fromh5 ⟨(sets.map fun bs => bs.branches.map toRec).flatten,
        ks.zip (sets.map fun bs => aremove "bsid" bs.attrs)⟩ =
      some (sets.map fun bs => ⟨bs.branches, aremove "bsid" bs.attrs⟩, t) := by
  refine ⟨toh5_mk sets sets2 t ks hks hnd hmk, ?_⟩
  obtain ⟨s2, h1, h2, h3⟩ := mk_char sets ks hks hnd
  rw [hmk] at h1
  injection h1 with h1
  injection h1 with he1 he2
  subst he1
  subst he2
  have hkslen : ks.length = sets.length := mapM_option_length bsidOf sets ks hks
  have hglen : (sets.map fun bs => bs.branches.map toRec).length = sets.length :=
    List.length_map ..
  have halen : (sets.map fun bs => aremove "bsid" bs.attrs).length = sets.length :=
    List.length_map ..
  have hzmem : ∀ g ∈ ks.zip (sets.map fun bs => bs.branches.map toRec),
      ∃ j, ∃ hj : j < sets.length, ∃ hjk : j < ks.length,
        g = (ks[j], sets[j].branches.map toRec) := by
    intro g hg
    obtain ⟨j, hj, hjv⟩ := List.getElem_of_mem hg
    have hjlen : j < sets.length := by
      simp only [List.length_zip, List.length_map] at hj
      omega
    have hjk : j < ks.length := by omega
    refine ⟨j, hjlen, hjk, ?_⟩
    rw [← hjv, List.getElem_zip]
    rw [List.getElem_map]
  have hga : group_array ((ks.zip (sets.map fun bs => bs.branches.map toRec)).map
      Prod.snd).flatten = ks.zip (sets.map fun bs => bs.branches.map toRec) := by
    apply group_array_concat
    · intro g hg
      obtain ⟨j, hj, hjk, rfl⟩ := hzmem g hg
      constructor
      · show sets[j].branches.map toRec ≠ []
        intro hnil
        exact hne sets[j] (List.getElem_mem hj) (by simpa using hnil)
      · intro r hr
        obtain ⟨b, hb, rfl⟩ := List.mem_map.1 hr
        show b.bsid = _
        have hjsz : j < (sets.zip ks).length := by
          rw [List.length_zip]
          omega
        have hp : (sets[j], ks[j]) ∈ sets.zip ks := by
          have hz : (sets.zip ks)[j] = (sets[j], ks[j]) := List.getElem_zip ..
          rw [← hz]
          exact List.getElem_mem hjsz
        exact hbr _ hp b hb
    · rw [List.map_fst_zip _ _ (by omega)]
      exact hnd
  have hrecs : ((ks.zip (sets.map fun bs => bs.branches.map toRec)).map
      Prod.snd).flatten = (sets.map fun bs => bs.branches.map toRec).flatten := by
    rw [List.map_snd_zip _ _ (by omega)]
  have hlook : ∀ j (hj : j < sets.length) (hjk : j < ks.length),
      alookup ks[j] (ks.zip (sets.map fun bs => aremove "bsid" bs.attrs)) =
        some (aremove "bsid" sets[j].attrs) := by
    intro j hj hjk
    have hjzl : j < (ks.zip (sets.map fun bs => aremove "bsid" bs.attrs)).length := by
      rw [List.length_zip]
      simp only [List.length_map]
      omega
    have hmem : (ks[j], aremove "bsid" sets[j].attrs) ∈
        ks.zip (sets.map fun bs => aremove "bsid" bs.attrs) := by
      have hz : (ks.zip (sets.map fun bs => aremove "bsid" bs.attrs))[j] =
          (ks[j], aremove "bsid" sets[j].attrs) := by
        rw [List.getElem_zip]
        rw [List.getElem_map]
      rw [← hz]
      exact List.getElem_mem hjzl
    exact alookup_zip_nodup ks (sets.map fun bs => aremove "bsid" bs.attrs) hnd _ hmem
  have hpairs : (ks.zip (sets.map fun bs => bs.branches.map toRec)).mapM
      (fun g : String × List BranchRec => do
        let a ← alookup g.1 (ks.zip (sets.map fun bs => aremove "bsid" bs.attrs))
        some (g.1, BranchSet.mk (g.2.map ofRec) a)) =
      some ((ks.zip (sets.map fun bs => bs.branches.map toRec)).map
        fun g : String × List BranchRec =>
          (g.1, BranchSet.mk (g.2.map ofRec)
            ((alookup g.1 (ks.zip (sets.map fun bs =>
              aremove "bsid" bs.attrs))).getD []))) := by
    apply mapM_option_congr
    intro g hg
    obtain ⟨j, hj, hjk, rfl⟩ := hzmem g hg
    show (alookup ks[j]
        (ks.zip (sets.map fun bs => aremove "bsid" bs.attrs))).bind _ = _
    rw [hlook j hj hjk]
    rfl
  show ((group_array ((sets.map fun bs : BranchSet => bs.branches.map toRec).flatten)).mapM
      (fun g : String × List BranchRec => do
        let a ← alookup g.1
          (ks.zip (sets.map fun bs : BranchSet => aremove "bsid" bs.attrs))
        some (g.1, BranchSet.mk (g.2.map ofRec) a))).bind
    (fun pairs => some (pairs.map fun pr : String × BranchSet => pr.2,
      (⟨pairs.enum.map fun p : Nat × (String × BranchSet) => (p.2.1, p.1)⟩ : LogicTree))) = _
  rw [← hrecs, hga, hpairs]
  have harena : (((ks.zip (sets.map fun bs => bs.branches.map toRec)).map
      fun g : String × List BranchRec =>
        (g.1, BranchSet.mk (g.2.map ofRec)
          ((alookup g.1 (ks.zip (sets.map fun bs =>
            aremove "bsid" bs.attrs))).getD []))).map
      (fun pr : String × BranchSet => pr.2)) =
      sets.map fun bs => ⟨bs.branches, aremove "bsid" bs.attrs⟩ := by
    apply List.ext_getElem
    · rw [List.length_map, List.length_map, List.length_zip, List.length_map,
        List.length_map]
      omega
    · intro j hja hjb
      have hj : j < sets.length := by simpa using hjb
      have hjz : j < (ks.zip (sets.map fun bs => bs.branches.map toRec)).length := by
        rw [List.length_zip]
        omega
      have hjk : j < ks.length := by omega
      have hjm : j < (sets.map fun bs : BranchSet => bs.branches.map toRec).length := by
        rw [List.length_map]
        omega
      simp only [List.getElem_map]
      rw [List.getElem_zip]
      show BranchSet.mk ((sets.map fun bs : BranchSet => bs.branches.map toRec)[j].map ofRec)
        ((alookup ks[j] (ks.zip (sets.map fun bs : BranchSet =>
          aremove "bsid" bs.attrs))).getD []) = _
      rw [hlook j hj hjk]
      show BranchSet.mk ((sets.map fun bs : BranchSet =>
        bs.branches.map toRec)[j].map ofRec) (aremove "bsid" sets[j].attrs) = _
      rw [List.getElem_map, List.map_map]
      have hid : sets[j].branches.map (ofRec ∘ toRec) = sets[j].branches := by
        conv_rhs => rw [← List.map_id sets[j].branches]
        apply List.map_congr_left
        intro b hb
        show (⟨b.bsid, b.brid, b.uncertainty, b.weight, none⟩ : Branch) = b
        rw [← hfr sets[j] (List.getElem_mem hj) b hb]
      rw [hid]
  simp only [Option.bind_eq_bind, Option.some_bind]
  rw [harena]
  have hdict : ((((ks.zip (sets.map fun bs => bs.branches.map toRec)).map
      fun g : String × List BranchRec =>
        (g.1, BranchSet.mk (g.2.map ofRec)
          ((alookup g.1 (ks.zip (sets.map fun bs =>
            aremove "bsid" bs.attrs))).getD []))).enum.map
      fun p : Nat × (String × BranchSet) => (p.2.1, p.1)) : List (String × Nat)) =
      ks.zip (List.range sets.length) := by
    rw [enum_map_key, List.map_map]
    have hfst : ((ks.zip (sets.map fun bs => bs.branches.map toRec)).map
        ((Prod.fst : String × BranchSet → String) ∘
          fun g : String × List BranchRec =>
            (g.1, BranchSet.mk (g.2.map ofRec)
              ((alookup g.1 (ks.zip (sets.map fun bs =>
                aremove "bsid" bs.attrs))).getD [])))) = ks := by
      rw [show ((Prod.fst : String × BranchSet → String) ∘
        fun g : String × List BranchRec =>
          (g.1, BranchSet.mk (g.2.map ofRec)
            ((alookup g.1 (ks.zip (sets.map fun bs =>
              aremove "bsid" bs.attrs))).getD []))) =
        (Prod.fst : String × List BranchRec → String) from rfl]
      rw [List.map_fst_zip _ _ (by omega)]
    rw [hfst]
    have hlen2 : (((ks.zip (sets.map fun bs : BranchSet => bs.branches.map toRec)).map
        (fun g : String × List BranchRec =>
          (g.1, BranchSet.mk (g.2.map ofRec)
            ((alookup g.1 (ks.zip (sets.map fun bs : BranchSet =>
              aremove "bsid" bs.attrs))).getD []))))).length = sets.length := by
      rw [List.length_map, List.length_zip, List.length_map]
      omega
    rw [hlen2]
  rw [hdict]

/-- Witness for the amended claim C1 at the example tree. -/
theorem C1_roundtrip_witness :
    exSets.mapM bsidOf = some ["bs1", "bs2"] ∧
    (["bs1", "bs2"] : List String).Nodup ∧
    Fresh exSets ∧
    (∀ p ∈ exSets.zip ["bs1", "bs2"], ∀ b ∈ p.1.branches, b.bsid = p.2) ∧
    (∀ bs ∈ exSets, bs.branches ≠ []) ∧
    mkLogicTree exSets = some (exLinked, exT) ∧
    (LogicTree.toh5 exLinked exT =
      some ⟨(exSets.map fun bs => bs.branches.map toRec).flatten,
        (["bs1", "bs2"] : List String).zip
          (exSets.map fun bs => aremove "bsid" bs.attrs)⟩ ∧
    fromh5 ⟨(exSets.map fun bs => bs.branches.map toRec).flatten,
        (["bs1", "bs2"] : List String).zip
          (exSets.map fun bs => aremove "bsid" bs.attrs)⟩ =
      some (exSets.map fun bs => ⟨bs.branches, aremove "bsid" bs.attrs⟩, exT)) := by
  have hks : exSets.mapM bsidOf = some ["bs1", "bs2"] := by decide
  have hnd : (["bs1", "bs2"] : List String).Nodup := by decide
  have hfr : Fresh exSets := by
    show ∀ bs ∈ exSets, ∀ b ∈ bs.branches, b.childset = none
    decide
  have hbr : ∀ p ∈ exSets.zip ["bs1", "bs2"], ∀ b ∈ p.1.branches, b.bsid = p.2 := by decide
  have hne : ∀ bs ∈ exSets, bs.branches ≠ [] := by decide
  have hmk : mkLogicTree exSets = some (exLinked, exT) := rfl
  exact ⟨hks, hnd, hfr, hbr, hne, hmk,
    C1_roundtrip exSets exLinked exT ["bs1", "bs2"] hks hnd hfr hbr hne hmk⟩

/-- Witness for claim C3 at the filtered three-branch-set tree: the count is
the full product 1 * 2 * 1 although the filter excludes branch a1 from the
linked view. -/
theorem C3_full_enumeration_count_witness :
    filtSets.mapM bsidOf = some ["bs1", "bs2", "bs3"] ∧
    (["bs1", "bs2", "bs3"] : List String).Nodup ∧
    ((mkLogicTree filtSets).bind fun p => LogicTree.gen_rlzs p.1 p.2 0 42).map List.length =
      some (filtSets.map fun bs => bs.branches.length).prod := by
  have hks : filtSets.mapM bsidOf = some ["bs1", "bs2", "bs3"] := by decide
  have hnd : (["bs1", "bs2", "bs3"] : List String).Nodup := by decide
  exact ⟨hks, hnd, C3_full_enumeration_count filtSets ["bs1", "bs2", "bs3"] 42 hks hnd⟩

/-- Witness for claim C4 at the example tree. -/
theorem C4_full_enumeration_weight_sum_witness :
    exSets.mapM bsidOf = some ["bs1", "bs2"] ∧
    (["bs1", "bs2"] : List String).Nodup ∧
    (((mkLogicTree exSets).bind fun p => LogicTree.gen_rlzs p.1 p.2 0 42).map
        (fun rlzs => (rlzs.map fun r => r.weight).sum) =
      some (exSets.map fun bs => (bs.branches.map fun b => b.weight).sum).prod ∧
    ((∀ bs ∈ exSets, (bs.branches.map fun b => b.weight).sum = 1) →
      ((mkLogicTree exSets).bind fun p => LogicTree.gen_rlzs p.1 p.2 0 42).map
        (fun rlzs => (rlzs.map fun r => r.weight).sum) = some 1)) ∧
    (∀ bs ∈ exSets, (bs.branches.map fun b => b.weight).sum = 1) := by
  have hks : exSets.mapM bsidOf = some ["bs1", "bs2"] := by decide
  have hnd : (["bs1", "bs2"] : List String).Nodup := by decide
  have hone : ∀ bs ∈ exSets, (bs.branches.map fun b => b.weight).sum = 1 := by
    intro bs hbs
    have hor : bs = exSets[0] ∨ bs = exSets[1] := by
      simpa [exSets] using hbs
    rcases hor with rfl | rfl <;> norm_num [exSets]
  exact ⟨hks, hnd, C4_full_enumeration_weight_sum exSets ["bs1", "bs2"] 42 hks hnd, hone⟩

end LT
